import Mathlib

/-!
Verification of the guitar-tab transcription pipeline
(`tab_generator.py`, `tab_synth.py`, `pitch_detector.py`, `tab_refiner.py`,
`auto_tune.py`, `synth_matcher.py`).

Shallow embedding conventions:
* Python floats are modelled as rationals (`ℚ`); `NaN` / missing values as
  `Option`; machine integers as `ℤ`/`ℕ` (no overflow is possible in this code).
* The external `librosa` pitch oracle (`note_to_midi`, `hz_to_midi`,
  `midi_to_note`) and `scipy.signal.medfilt` are modelled as parameters of the
  embedded functions; note-name strings are identified with their rounded
  integer MIDI values (`librosa.midi_to_note` is injective on integers).
* Python text is modelled as `List Char`; `re.findall` tokenisation is
  implemented as a fuel-indexed left-to-right scanner so that it stays
  kernel-computable.
-/

-- Batteries marks the rational-number operations `@[irreducible]`, which
-- blocks elaborator-side evaluation of concrete witnesses; restore the
-- default reducibility for this file (proof-irrelevant: unfolding hints only).
attribute [local semireducible] Rat.add Rat.sub Rat.mul Rat.inv Rat.ofScientific

/-! ## Fretboard mapper (`tab_generator.py`) -/

/-- `OPEN_STRING_MIDI` table of `GuitarTabGenerator` (`tab_generator.py`,
lines 12-19), in the dict insertion order `6,5,4,3,2,1`. -/
def OPEN_STRING_MIDI : List (ℤ × ℤ) :=
  [(6, 40), (5, 45), (4, 50), (3, 55), (2, 59), (1, 64)]

/-- Open-string MIDI of a string number, i.e. `OPEN_STRING_MIDI[string]`. -/
def openStringMidi (s : ℤ) : ℤ :=
  ((OPEN_STRING_MIDI.lookup s).getD 0)

/-- `note_to_tab_positions` (`tab_generator.py`, lines 31-43), with the note
name already resolved to its MIDI number by the external
`librosa.note_to_midi`.  A name that `librosa` rejects yields `[]` in the
source (the `except` branch); that case is reachable here as a MIDI with no
candidates and is treated identically downstream. -/
def note_to_tab_positions (max_fret : ℤ) (note_midi : ℤ) : List (ℤ × ℤ) :=
  OPEN_STRING_MIDI.filterMap (fun p =>
    let fret := note_midi - p.2
    if 0 ≤ fret ∧ fret ≤ max_fret then some (p.1, fret) else none)

/-- `sorted(xs, key=key)[0]` for a stable sort: the earliest element of
`x :: xs` attaining the minimal key. -/
def chooseMin {α β : Type} [LinearOrder β] (key : α → β) (x : α) (xs : List α) : α :=
  xs.foldl (fun best y => if key y < key best then y else best) x

/-- `_choose_position` (`tab_generator.py`, lines 45-54).  A position is a
pair `(string, fret)`; the stored last position is `(string, fret)` as well. -/
def _choose_position (last : Option (ℤ × ℤ)) (positions : List (ℤ × ℤ)) : ℤ × ℤ :=
  match positions with
  | [] => (1, 0)
  | p :: ps =>
    match last with
    | none => chooseMin (fun x => toLex (x.2, x.1)) p ps
    | some lp => chooseMin (fun x => toLex (|x.2 - lp.2|, toLex (|x.1 - lp.1|, x.2))) p ps

theorem chooseMin_mem {α β : Type} [LinearOrder β] (key : α → β) (x : α) (xs : List α) :
    chooseMin key x xs ∈ x :: xs := by
  induction xs generalizing x with
  | nil => simp [chooseMin]
  | cons y ys ih =>
    simp only [chooseMin, List.foldl_cons]
    by_cases h : key y < key x
    · simp only [if_pos h]
      have h1 := ih y
      simp only [chooseMin] at h1
      exact List.mem_cons_of_mem x h1
    · simp only [if_neg h]
      have h1 := ih x
      simp only [chooseMin] at h1
      rcases List.mem_cons.mp h1 with h2 | h2
      · rw [h2]; exact List.mem_cons_self x _
      · exact List.mem_cons_of_mem x (List.mem_cons_of_mem y h2)

theorem chooseMin_min {α β : Type} [LinearOrder β] (key : α → β) (x : α) (xs : List α) :
    ∀ y ∈ x :: xs, key (chooseMin key x xs) ≤ key y := by
  induction xs generalizing x with
  | nil => intro y hy; simp at hy; simp [chooseMin, hy]
  | cons z zs ih =>
    intro y hy
    simp only [chooseMin, List.foldl_cons]
    by_cases h : key z < key x
    · simp only [if_pos h]
      rcases List.mem_cons.mp hy with h2 | h2
      · calc key (chooseMin key z zs) ≤ key z := ih z z (by simp)
          _ ≤ key y := by rw [h2]; exact le_of_lt h
      · exact ih z y h2
    · simp only [if_neg h]
      rcases List.mem_cons.mp hy with h2 | h2
      · exact ih x y (by simp [h2])
      · rcases List.mem_cons.mp h2 with h3 | h3
        · calc key (chooseMin key x zs) ≤ key x := ih x x (by simp)
            _ ≤ key y := by rw [h3]; exact not_lt.mp h
        · exact ih x y (by simp [h3])

theorem mem_note_to_tab_positions {max_fret note_midi : ℤ} {p : ℤ × ℤ}
    (hp : p ∈ note_to_tab_positions max_fret note_midi) :
    (p.1, note_midi - p.2) ∈ OPEN_STRING_MIDI ∧ 0 ≤ p.2 ∧ p.2 ≤ max_fret := by
  simp only [note_to_tab_positions, List.mem_filterMap] at hp
  obtain ⟨a, ha, heq⟩ := hp
  by_cases h : 0 ≤ note_midi - a.2 ∧ note_midi - a.2 ≤ max_fret
  · simp only [if_pos h] at heq
    obtain rfl : (a.1, note_midi - a.2) = p := Option.some.inj heq
    refine ⟨?_, h.1, h.2⟩
    have h2 : note_midi - (note_midi - a.2) = a.2 := by ring
    simpa [h2] using ha
  · simp only [if_neg h] at heq
    exact absurd heq (by simp)

theorem lookup_open_string {s o : ℤ} (h : (s, o) ∈ OPEN_STRING_MIDI) :
    OPEN_STRING_MIDI.lookup s = some o := by
  simp only [OPEN_STRING_MIDI, List.mem_cons, List.not_mem_nil, or_false,
    Prod.mk.injEq] at h
  rcases h with ⟨rfl, rfl⟩ | ⟨rfl, rfl⟩ | ⟨rfl, rfl⟩ | ⟨rfl, rfl⟩ | ⟨rfl, rfl⟩ | ⟨rfl, rfl⟩ <;>
    decide

theorem choose_position_mem {last : Option (ℤ × ℤ)} {positions : List (ℤ × ℤ)}
    (hne : positions ≠ []) : _choose_position last positions ∈ positions := by
  match positions, hne with
  | p :: ps, _ =>
    cases last with
    | none => exact chooseMin_mem _ p ps
    | some lp => exact chooseMin_mem _ p ps

/-- C2.  Fret assignment postcondition: whenever the target MIDI admits at
least one `(string, fret)` candidate with `0 ≤ fret ≤ max_fret`, the position
chosen by `generate_tabs` (via `_choose_position`, for any last-position
state) satisfies `open_string_midi[string] + fret = target` and
`0 ≤ fret ≤ max_fret`; when no candidate qualifies, the degenerate default
`(1, 0)` is assigned. -/
theorem fret_assignment_postcondition (max_fret note_midi : ℤ) (last : Option (ℤ × ℤ)) :
    (note_to_tab_positions max_fret note_midi ≠ [] →
      openStringMidi (_choose_position last (note_to_tab_positions max_fret note_midi)).1 +
          (_choose_position last (note_to_tab_positions max_fret note_midi)).2 = note_midi ∧
        0 ≤ (_choose_position last (note_to_tab_positions max_fret note_midi)).2 ∧
        (_choose_position last (note_to_tab_positions max_fret note_midi)).2 ≤ max_fret) ∧
    (note_to_tab_positions max_fret note_midi = [] →
      _choose_position last (note_to_tab_positions max_fret note_midi) = (1, 0)) := by
  constructor
  · intro hne
    have hmem := @choose_position_mem last _ hne
    obtain ⟨hin, h0, hle⟩ := mem_note_to_tab_positions hmem
    refine ⟨?_, h0, hle⟩
    have hl := lookup_open_string hin
    simp only [openStringMidi, hl, Option.getD_some]
    ring
  · intro hemp
    rw [hemp]
    rfl

theorem fret_assignment_postcondition_witness :
    note_to_tab_positions 15 64 ≠ [] ∧
      (openStringMidi (_choose_position none (note_to_tab_positions 15 64)).1 +
          (_choose_position none (note_to_tab_positions 15 64)).2 = 64 ∧
        0 ≤ (_choose_position none (note_to_tab_positions 15 64)).2 ∧
        (_choose_position none (note_to_tab_positions 15 64)).2 ≤ 15) :=
  ⟨by decide, (fret_assignment_postcondition 15 64 none).1 (by decide)⟩

/-- C5.  Greedy position choice: with a non-empty candidate set, the first
note's position (no last position) is a candidate minimizing the
lexicographic key `(fret, string)`, and every subsequent note's position is a
candidate minimizing the lexicographic key
`(|fret - last_fret|, |string - last_string|, fret)` relative to the
previously chosen position `lp = (last_string, last_fret)`. -/
theorem choose_position_greedy (positions : List (ℤ × ℤ)) (hne : positions ≠ [])
    (lp : ℤ × ℤ) :
    (_choose_position none positions ∈ positions ∧
      ∀ q ∈ positions,
        toLex ((_choose_position none positions).2, (_choose_position none positions).1) ≤
          toLex (q.2, q.1)) ∧
    (_choose_position (some lp) positions ∈ positions ∧
      ∀ q ∈ positions,
        toLex (|(_choose_position (some lp) positions).2 - lp.2|,
            toLex (|(_choose_position (some lp) positions).1 - lp.1|,
              (_choose_position (some lp) positions).2)) ≤
          toLex (|q.2 - lp.2|, toLex (|q.1 - lp.1|, q.2))) := by
  match positions, hne with
  | p :: ps, _ =>
    refine ⟨⟨chooseMin_mem _ p ps, ?_⟩, ⟨chooseMin_mem _ p ps, ?_⟩⟩
    · intro q hq
      exact chooseMin_min (fun x => toLex (x.2, x.1)) p ps q hq
    · intro q hq
      exact chooseMin_min (fun x => toLex (|x.2 - lp.2|, toLex (|x.1 - lp.1|, x.2))) p ps q hq

theorem choose_position_greedy_witness :
    ((3 : ℤ), (5 : ℤ)) :: [((2 : ℤ), (1 : ℤ))] ≠ [] ∧
      (_choose_position none [((3 : ℤ), (5 : ℤ)), ((2 : ℤ), (1 : ℤ))] ∈
        [((3 : ℤ), (5 : ℤ)), ((2 : ℤ), (1 : ℤ))] ∧
      ∀ q ∈ [((3 : ℤ), (5 : ℤ)), ((2 : ℤ), (1 : ℤ))],
        toLex ((_choose_position none [((3 : ℤ), (5 : ℤ)), ((2 : ℤ), (1 : ℤ))]).2,
            (_choose_position none [((3 : ℤ), (5 : ℤ)), ((2 : ℤ), (1 : ℤ))]).1) ≤
          toLex (q.2, q.1)) :=
  ⟨by decide, ((choose_position_greedy [(3, 5), (2, 1)] (by decide) (1, 0)).1)⟩

/-! ## Note segmentation (`pitch_detector.py`) -/

/-- A note dict as built by `extract_notes_from_audio` (`pitch_detector.py`).
The `note` field holds the pitch label: note-name strings are identified with
their rounded integer MIDI values (`librosa.midi_to_note` is injective on
integers, and the code only ever compares these strings for equality). -/
structure NoteRec where
  note : ℤ
  midi : ℤ
  frequency : ℚ
  start_time : ℚ
  end_time : ℚ
  duration : ℚ
deriving DecidableEq

/-- The loop body of `_merge_adjacent_notes` (`pitch_detector.py`,
lines 158-166): `last` is the mutable `merged[-1]`, the tail is the remaining
input. -/
def mergeAux (merge_gap : ℚ) (last : NoteRec) : List NoteRec → List NoteRec
  | [] => [last]
  | n :: rest =>
    if n.note = last.note ∧ n.start_time - last.end_time ≤ merge_gap then
      mergeAux merge_gap
        { last with end_time := n.end_time, duration := n.end_time - last.start_time } rest
    else
      last :: mergeAux merge_gap n rest

/-- `_merge_adjacent_notes` (`pitch_detector.py`, lines 153-167). -/
def _merge_adjacent_notes (merge_gap : ℚ) : List NoteRec → List NoteRec
  | [] => []
  | n :: rest => mergeAux merge_gap n rest

/-- The separation that `_merge_adjacent_notes` establishes between two
consecutive output notes: they must not be mergeable. -/
def noMerge (merge_gap : ℚ) (a b : NoteRec) : Prop :=
  ¬(b.note = a.note ∧ b.start_time - a.end_time ≤ merge_gap)

theorem mergeAux_head (g : ℚ) (last : NoteRec) (xs : List NoteRec) :
    ∃ h t, mergeAux g last xs = h :: t ∧ h.note = last.note ∧
      h.start_time = last.start_time := by
  induction xs generalizing last with
  | nil => exact ⟨last, [], rfl, rfl, rfl⟩
  | cons n rest ih =>
    by_cases hc : n.note = last.note ∧ n.start_time - last.end_time ≤ g
    · simp only [mergeAux, if_pos hc]
      obtain ⟨h, t, heq, h1, h2⟩ := ih
        { last with end_time := n.end_time, duration := n.end_time - last.start_time }
      exact ⟨h, t, heq, h1, h2⟩
    · simp only [mergeAux, if_neg hc]
      exact ⟨last, _, rfl, rfl, rfl⟩

theorem mergeAux_chain (g : ℚ) (last : NoteRec) (xs : List NoteRec) :
    List.Chain' (noMerge g) (mergeAux g last xs) := by
  induction xs generalizing last with
  | nil => simp [mergeAux]
  | cons n rest ih =>
    by_cases hc : n.note = last.note ∧ n.start_time - last.end_time ≤ g
    · simp only [mergeAux, if_pos hc]
      exact ih _
    · simp only [mergeAux, if_neg hc]
      obtain ⟨h, t, heq, h1, h2⟩ := mergeAux_head g n rest
      rw [heq]
      refine List.Chain'.cons ?_ (heq ▸ ih n)
      simp only [noMerge, h1, h2]
      exact hc

theorem mergeAux_of_chain (g : ℚ) (last : NoteRec) (xs : List NoteRec)
    (h : List.Chain' (noMerge g) (last :: xs)) :
    mergeAux g last xs = last :: xs := by
  induction xs generalizing last with
  | nil => rfl
  | cons n rest ih =>
    have h1 : noMerge g last n := List.chain'_cons.mp h |>.1
    have h2 : List.Chain' (noMerge g) (n :: rest) := List.chain'_cons.mp h |>.2
    simp only [mergeAux, if_neg h1]
    rw [ih n h2]

/-- C6.  Merge idempotence: for every list of note records and every
`merge_gap`, `_merge_adjacent_notes` applied to its own output returns that
output unchanged. -/
theorem merge_adjacent_notes_idempotent (merge_gap : ℚ) (notes : List NoteRec) :
    _merge_adjacent_notes merge_gap (_merge_adjacent_notes merge_gap notes) =
      _merge_adjacent_notes merge_gap notes := by
  cases notes with
  | nil => rfl
  | cons n rest =>
    show _merge_adjacent_notes merge_gap (mergeAux merge_gap n rest) = mergeAux merge_gap n rest
    obtain ⟨h, t, heq, _, _⟩ := mergeAux_head merge_gap n rest
    have hchain : List.Chain' (noMerge merge_gap) (h :: t) := heq ▸ mergeAux_chain merge_gap n rest
    rw [heq]
    show mergeAux merge_gap h t = h :: t
    exact mergeAux_of_chain merge_gap h t hchain

/-- Python `round` on a rational: round half to even (banker's rounding). -/
def pyRound (x : ℚ) : ℤ :=
  let f := Int.floor x
  let r := x - f
  if r < 1/2 then f
  else if 1/2 < r then f + 1
  else if f % 2 = 0 then f else f + 1

/-- Python `int()` on a rational: truncation toward zero. -/
def ratTrunc (x : ℚ) : ℤ := Int.tdiv x.num (x.den : ℤ)

/-- One per-frame input to the segmentation loop: the smoothed `f0` entry
(`none` models `NaN`/missing), the frame time and the voiced probability.
The source zips three equal-length arrays (`f0`, `times`, `voiced_probs`)
produced by `detect_pitch`; a single frame list models that zip. -/
structure Frame where
  freq : Option ℚ
  time : ℚ
  prob : ℚ
deriving DecidableEq

/-- `frequency_to_note` (`pitch_detector.py`, lines 68-81), parametrised by
the external `librosa.hz_to_midi` map.  The returned pair is
(note label = `int(round(midi_number))`, midi = `int(midi_number)`); the
note-name string `librosa.midi_to_note(...)` is represented by the rounded
integer itself. -/
def frequency_to_note (hzToMidi : ℚ → ℚ) (freq : Option ℚ) : Option (ℤ × ℤ) :=
  match freq with
  | none => none
  | some f =>
    if f ≤ 0 then none
    else
      let m := hzToMidi f
      some (pyRound m, ratTrunc m)

/-- The in-progress note of the segmentation loop
(`current_note`, `current_midi`, `current_freq`, `note_start_time`). -/
structure CurNote where
  note : ℤ
  midi : ℤ
  frequency : ℚ
  start_time : ℚ
deriving DecidableEq

/-- The note label of a frame: `frequency_to_note(freq if voiced_ok else None)`
(`pitch_detector.py`, lines 105-106). -/
def labelAt (hzToMidi : ℚ → ℚ) (min_voiced_prob : ℚ) (fr : Frame) : Option (ℤ × ℤ) :=
  frequency_to_note hzToMidi (if min_voiced_prob ≤ fr.prob then fr.freq else none)

/-- The note closed by processing one frame, if any (the two emit sites at
`pitch_detector.py` lines 109-120 and 122-133, before the duration filter). -/
def stepClosed (hzToMidi : ℚ → ℚ) (min_voiced_prob : ℚ) (cur : Option CurNote)
    (fr : Frame) : Option CurNote :=
  match labelAt hzToMidi min_voiced_prob fr, cur with
  | none, some c => some c
  | some (name, _), some c => if c.note = name then none else some c
  | _, none => none

/-- The in-progress note after processing one frame
(`pitch_detector.py`, lines 104-137). -/
def stepNext (hzToMidi : ℚ → ℚ) (min_voiced_prob : ℚ) (cur : Option CurNote)
    (fr : Frame) : Option CurNote :=
  match labelAt hzToMidi min_voiced_prob fr, cur with
  | none, _ => none
  | some (name, midi), some c =>
    if c.note = name then some c
    else some ⟨name, midi, fr.freq.getD 0, fr.time⟩
  | some (name, midi), none => some ⟨name, midi, fr.freq.getD 0, fr.time⟩

/-- The note record emitted when the in-progress note `c` is closed at time
`t`. -/
def segAt (c : CurNote) (t : ℚ) : NoteRec :=
  ⟨c.note, c.midi, c.frequency, c.start_time, t, t - c.start_time⟩

/-- Closing the in-progress note `c` at time `t`: emit it only when its
duration reaches `min_duration` (`duration >= min_duration`). -/
def closeNote (min_duration : ℚ) (c : CurNote) (t : ℚ) : List NoteRec :=
  if min_duration ≤ t - c.start_time then [segAt c t] else []

/-- The segmentation loop of `extract_notes_from_audio`
(`pitch_detector.py`, lines 100-149) including the end-of-stream flush, which
closes a still-open note at the last frame's time (`times[-1]`), producing
the `notes` list before the merge pass. -/
def extractAux (hzToMidi : ℚ → ℚ) (min_duration min_voiced_prob : ℚ)
    (cur : Option CurNote) : List Frame → List NoteRec
  | [] => []
  | fr :: rest =>
    let closed := match stepClosed hzToMidi min_voiced_prob cur fr with
      | some c => closeNote min_duration c fr.time
      | none => []
    match rest with
    | [] => closed ++ (match stepNext hzToMidi min_voiced_prob cur fr with
        | some c => closeNote min_duration c fr.time
        | none => [])
    | _ :: _ =>
      closed ++ extractAux hzToMidi min_duration min_voiced_prob
        (stepNext hzToMidi min_voiced_prob cur fr) rest

/-- `extract_notes_from_audio` (`pitch_detector.py`, lines 83-151): the
segmentation loop followed by `_merge_adjacent_notes` (line 151).  The pitch
oracle `detect_pitch` is external; its per-frame output stream is the
`frames` input. -/
def extract_notes_from_audio (hzToMidi : ℚ → ℚ) (frames : List Frame)
    (min_duration min_voiced_prob merge_gap : ℚ) : List NoteRec :=
  _merge_adjacent_notes merge_gap
    (extractAux hzToMidi min_duration min_voiced_prob none frames)

/-- Analysis helper (not in the source): the same segmentation loop emitting
every closed segment, with no `min_duration` filter. -/
def allSegsAux (hzToMidi : ℚ → ℚ) (min_voiced_prob : ℚ)
    (cur : Option CurNote) : List Frame → List NoteRec
  | [] => []
  | fr :: rest =>
    let closed := match stepClosed hzToMidi min_voiced_prob cur fr with
      | some c => [segAt c fr.time]
      | none => []
    match rest with
    | [] => closed ++ (match stepNext hzToMidi min_voiced_prob cur fr with
        | some c => [segAt c fr.time]
        | none => [])
    | _ :: _ =>
      closed ++ allSegsAux hzToMidi min_voiced_prob
        (stepNext hzToMidi min_voiced_prob cur fr) rest

theorem closeNote_eq_filter (md : ℚ) (c : CurNote) (t : ℚ) :
    closeNote md c t = [segAt c t].filter (fun nt => md ≤ nt.duration) := by
  by_cases h : md ≤ t - c.start_time
  · simp [closeNote, if_pos h, List.filter, segAt, h]
  · simp [closeNote, if_neg h, List.filter, segAt, h]

theorem extractAux_eq_filter (hz : ℚ → ℚ) (md mp : ℚ) (cur : Option CurNote)
    (frames : List Frame) :
    extractAux hz md mp cur frames =
      (allSegsAux hz mp cur frames).filter (fun nt => md ≤ nt.duration) := by
  induction frames generalizing cur with
  | nil => rfl
  | cons fr rest ih =>
    cases rest with
    | nil =>
      simp only [extractAux, allSegsAux, List.filter_append]
      congr 1
      · cases stepClosed hz mp cur fr with
        | none => rfl
        | some c => exact closeNote_eq_filter md c fr.time
      · cases stepNext hz mp cur fr with
        | none => rfl
        | some c => exact closeNote_eq_filter md c fr.time
    | cons fr2 rest2 =>
      simp only [extractAux, allSegsAux, List.filter_append]
      congr 1
      · cases stepClosed hz mp cur fr with
        | none => rfl
        | some c => exact closeNote_eq_filter md c fr.time
      · exact ih _

theorem length_filter_of_implies {α : Type} (p q : α → Bool) (l : List α)
    (h : ∀ x, q x = true → p x = true) :
    (l.filter q).length ≤ (l.filter p).length := by
  induction l with
  | nil => simp
  | cons x xs ih =>
    by_cases hq : q x = true
    · simp only [List.filter_cons, hq, h x hq, if_pos]
      simpa using ih
    · have : (List.filter q (x :: xs)).length = (List.filter q xs).length := by
        simp [List.filter_cons, hq]
      rw [this]
      by_cases hp : p x = true
      · simp only [List.filter_cons, hp, if_pos]
        exact le_trans ih (by simp)
      · simp only [List.filter_cons, hp]
        simpa using ih

/-- C3 (amended).  Segmentation monotonicity holds for the note list emitted
by the segmentation loop BEFORE the merge pass: for a fixed per-frame input
stream and fixed `min_voiced_prob`, if `min_duration_a ≤ min_duration_b` then
the loop with `min_duration_b` emits at most as many notes as with
`min_duration_a`.  (The merge pass of `extract_notes_from_audio` can break
this monotonicity, see the counterexample.) -/
theorem segmentation_raw_count_antitone (hz : ℚ → ℚ) (mp : ℚ) (frames : List Frame)
    (md_a md_b : ℚ) (h : md_a ≤ md_b) :
    (extractAux hz md_b mp none frames).length ≤
      (extractAux hz md_a mp none frames).length := by
  rw [extractAux_eq_filter, extractAux_eq_filter]
  refine length_filter_of_implies _ _ _ ?_
  intro nt hnt
  simp only [decide_eq_true_eq] at hnt ⊢
  exact le_trans h hnt

theorem segmentation_raw_count_antitone_witness :
    (1 : ℚ) / 100 ≤ 3 / 100 ∧
      (extractAux (fun _ => 69) (3 / 100) (1 / 2) none
          [⟨some 440, 0, 1⟩, ⟨none, 1 / 2, 0⟩]).length ≤
        (extractAux (fun _ => 69) (1 / 100) (1 / 2) none
          [⟨some 440, 0, 1⟩, ⟨none, 1 / 2, 0⟩]).length :=
  ⟨by norm_num,
    segmentation_raw_count_antitone (fun _ => 69) (1 / 2)
      [⟨some 440, 0, 1⟩, ⟨none, 1 / 2, 0⟩] (1 / 100) (3 / 100) (by norm_num)⟩

/-- The frame stream of the C3 counterexample: an A (label 69) sounding on
`[0, 1/2]`, a brief A on `[0.52, 0.54]`, and an A on `[0.56, 1]`, with
unvoiced frames in the gaps. -/
def c3Frames : List Frame :=
  [⟨some 440, 0, 1⟩, ⟨none, 1 / 2, 0⟩, ⟨some 440, 52 / 100, 1⟩,
    ⟨none, 54 / 100, 0⟩, ⟨some 440, 56 / 100, 1⟩, ⟨some 440, 1, 1⟩]

/-- C3 counterexample.  With `min_voiced_prob = 1/2` and `merge_gap = 1/20`,
raising `min_duration` from `1/100` to `3/100` drops the brief middle note,
which breaks the merge chain: `extract_notes_from_audio` returns 1 note at
`min_duration = 1/100` but 2 notes at `min_duration = 3/100`, refuting the
claimed monotonicity of the emitted-note count. -/
theorem segmentation_monotonicity_cex :
    (1 : ℚ) / 100 ≤ 3 / 100 ∧
      (extract_notes_from_audio (fun _ => 69) c3Frames (1 / 100) (1 / 2) (1 / 20)).length = 1 ∧
      (extract_notes_from_audio (fun _ => 69) c3Frames (3 / 100) (1 / 2) (1 / 20)).length = 2 := by
  refine ⟨by norm_num, ?_, ?_⟩ <;> decide

/-! ## Tab text codec (`tab_generator.py` formatting, `tab_synth.py` parsing) -/

deriving instance DecidableEq for Except

/-- A cell of the six-string tab grid: a rest or a fret number. -/
inductive Cell where
  | rest : Cell
  | fret : ℕ → Cell
deriving DecidableEq

/-- The display string of a cell before alignment: `str(match["fret"])` for a
placed note, `"-"` for a rest (`tab_generator.py`, line 94). -/
def cellStr : Cell → List Char
  | Cell.rest => ['-']
  | Cell.fret n => Nat.toDigits 10 n

/-- Python `f"{s:>2}"`: right-align in width 2 with spaces. -/
def pad2 (s : List Char) : List Char := List.replicate (2 - s.length) ' ' ++ s

/-- `sep.join(xs)`. -/
def joinSep (sep : Char) : List (List Char) → List Char
  | [] => []
  | [x] => x
  | x :: xs => x ++ sep :: joinSep sep xs

/-- The cell body of a tab row line: `"-".join(f"{tab:>2}" for tab in cells)`
(`tab_generator.py`, line 99). -/
def rowBody (cells : List Cell) : List Char :=
  joinSep '-' (cells.map (fun c => pad2 (cellStr c)))

/-- One tab row line `f"{name}|" + body + "|"` (`tab_generator.py`,
lines 98-100). -/
def rowLine (label : Char) (cells : List Cell) : List Char :=
  label :: '|' :: (rowBody cells ++ ['|'])

/-- `string_names = ["e", "B", "G", "D", "A", "E"]` (`tab_generator.py`,
line 96). -/
def stringNames : List Char := ['e', 'B', 'G', 'D', 'A', 'E']

/-- The 60-character rule line `"=" * 60`. -/
def ruleLine : List Char := List.replicate 60 '='

/-- The title line `"GUITAR TABS"`. -/
def titleLine : List Char := "GUITAR TABS".toList

/-- The grid-formatting part of `format_tabs_as_text` (`tab_generator.py`,
lines 81-104) applied to an already-built `strings_display` grid:
header, six row lines, footer, joined with newlines. -/
def formatGrid (grid : List (List Cell)) : List Char :=
  joinSep '\n'
    ([ruleLine, titleLine, ruleLine] ++ List.zipWith rowLine stringNames grid ++ [ruleLine])

/-- Python `str.splitlines()` on `\n`-separated text.  (Python drops one
trailing empty line; that only adds empty strings here, which the caller
filters out.) -/
def splitNl : List Char → List (List Char)
  | [] => [[]]
  | c :: rest =>
    if c = '\n' then [] :: splitNl rest
    else
      match splitNl rest with
      | [] => [[c]]
      | h :: t => (c :: h) :: t

/-- Python `str.strip()`: drop leading and trailing whitespace. -/
def pyStrip (l : List Char) : List Char :=
  ((l.dropWhile Char.isWhitespace).reverse.dropWhile Char.isWhitespace).reverse

/-- `re.match(r'^[eBGDAE]\|', ln)` (`tab_synth.py`, line 69). -/
def isStringLine (ln : List Char) : Bool :=
  match ln with
  | c :: d :: _ =>
    d == '|' && (c == 'e' || c == 'B' || c == 'G' || c == 'D' || c == 'A' || c == 'E')
  | _ => false

/-- `ln.split('|', 1)[1].rsplit('|', 1)[0] if '|' in ln else ln`
(`tab_synth.py`, line 80). -/
def bodyOf (ln : List Char) : List Char :=
  if '|' ∈ ln then
    let after := (ln.dropWhile (fun c => c != '|')).tail
    if '|' ∈ after then ((after.reverse.dropWhile (fun c => c != '|')).tail).reverse
    else after
  else ln

/-- One step of `re.findall(r'--|\d+', body)` (`tab_synth.py`, line 81):
fuel-indexed left-to-right scan; at each position the alternative `--` is
tried first, then a maximal run of digits; otherwise the position is
skipped.  Every step consumes at least one character, so fuel `length`
suffices. -/
def tokenizeF : ℕ → List Char → List (List Char)
  | 0, _ => []
  | _ + 1, [] => []
  | f + 1, c :: rest =>
    if c = '-' ∧ rest.head? = some '-' then ['-', '-'] :: tokenizeF f rest.tail
    else if c.isDigit then
      (c :: rest.takeWhile Char.isDigit) :: tokenizeF f (rest.dropWhile Char.isDigit)
    else tokenizeF f rest

/-- `re.findall(r'--|\d+', body)`. -/
def tokenize (l : List Char) : List (List Char) := tokenizeF l.length l

/-- `parse_tabs_text` (`tab_synth.py`, lines 60-90): select the `[eBGDAE]|`
lines, take the first six, tokenize the substring between the first and last
`|` of each, and right-pad every row with `--` tokens to the longest row's
column count.  Returns the token grid (rows in order e B G D A E) and the
column count, or the `ValueError` message. -/
def parse_tabs_text (tab_text : List Char) :
    Except (List Char) (List (List (List Char)) × ℕ) :=
  let lines := ((splitNl tab_text).map pyStrip).filter (fun l => !l.isEmpty)
  let string_lines := lines.filter isStringLine
  if string_lines.length < 6 then
    Except.error "Tabs text does not contain 6 string lines.".toList
  else
    let rows := (string_lines.take 6).map (fun ln => tokenize (bodyOf ln))
    let max_cols := rows.foldl (fun m r => max m r.length) 0
    let padded := rows.map (fun r => r ++ List.replicate (max_cols - r.length) ['-', '-'])
    Except.ok (padded, max_cols)

/-- The token `parse_tabs_text` yields for one formatted cell: the rest
marker `--` or the fret's digit run. -/
def tokenOf : Cell → List Char
  | Cell.rest => ['-', '-']
  | Cell.fret n => Nat.toDigits 10 n

/-- Cells in the range the round-trip property quantifies over
(frets 0..24). -/
def validCell : Cell → Prop
  | Cell.rest => True
  | Cell.fret n => n ≤ 24

/-- The token list the scanner recovers from one formatted row: one token per
cell, except that a trailing rest cell merges with the separator in front of
it and is lost. -/
def rowTokens (cells : List Cell) : List (List Char) :=
  match cells.getLast? with
  | some Cell.rest => (cells.map tokenOf).dropLast
  | _ => cells.map tokenOf

theorem toDigits_facts : ∀ n : ℕ, n < 25 →
    (Nat.toDigits 10 n ≠ [] ∧ (Nat.toDigits 10 n).all Char.isDigit = true ∧
      (Nat.toDigits 10 n).length ≤ 2) := by decide

theorem tokenizeF_nil (f : ℕ) : tokenizeF f [] = [] := by cases f <;> rfl

theorem tokenizeF_space (f : ℕ) (l : List Char) :
    tokenizeF (f + 1) (' ' :: l) = tokenizeF f l := by
  simp [tokenizeF]

theorem tokenizeF_dashdash (f : ℕ) (l : List Char) :
    tokenizeF (f + 1) ('-' :: '-' :: l) = ['-', '-'] :: tokenizeF f l := by
  simp [tokenizeF]

theorem tokenizeF_dash (f : ℕ) (l : List Char) (h : l.head? ≠ some '-') :
    tokenizeF (f + 1) ('-' :: l) = tokenizeF f l := by
  simp [tokenizeF, h]

theorem takeWhile_all_append (p : Char → Bool) (xs ys : List Char) (h : xs.all p = true) :
    (xs ++ ys).takeWhile p = xs ++ ys.takeWhile p := by
  induction xs with
  | nil => simp
  | cons a l ih =>
    simp only [List.all_cons, Bool.and_eq_true] at h
    simp [List.takeWhile_cons, h.1, ih h.2]

theorem dropWhile_all_append (p : Char → Bool) (xs ys : List Char) (h : xs.all p = true) :
    (xs ++ ys).dropWhile p = ys.dropWhile p := by
  induction xs with
  | nil => simp
  | cons a l ih =>
    simp only [List.all_cons, Bool.and_eq_true] at h
    simp [List.dropWhile_cons, h.1, ih h.2]

theorem tokenizeF_digits (f : ℕ) (ds l : List Char) (hne : ds ≠ [])
    (hds : ds.all Char.isDigit = true)
    (hl : ∀ d, l.head? = some d → d.isDigit = false) :
    tokenizeF (f + 1) (ds ++ l) = ds :: tokenizeF f l := by
  match ds, hne, hds with
  | d :: ds2, _, hds =>
    have hdig : d.isDigit = true := by
      simp only [List.all_cons, Bool.and_eq_true] at hds; exact hds.1
    have hds2 : ds2.all Char.isDigit = true := by
      simp only [List.all_cons, Bool.and_eq_true] at hds; exact hds.2
    have hd : ¬(d = '-') := by
      intro h; rw [h] at hdig; exact absurd hdig (by decide)
    have htake : l.takeWhile Char.isDigit = [] := by
      cases l with
      | nil => rfl
      | cons a t =>
        have := hl a rfl
        simp [List.takeWhile_cons, this]
    have hdrop : l.dropWhile Char.isDigit = l := by
      cases l with
      | nil => rfl
      | cons a t =>
        have := hl a rfl
        simp [List.dropWhile_cons, this]
    show tokenizeF (f + 1) (d :: (ds2 ++ l)) = (d :: ds2) :: tokenizeF f l
    rw [tokenizeF]
    rw [if_neg (by simp [hd]), if_pos hdig]
    rw [takeWhile_all_append _ _ _ hds2, dropWhile_all_append _ _ _ hds2, htake, hdrop]
    simp

theorem padCell_length (c : Cell) (hc : validCell c) :
    (pad2 (cellStr c)).length = 2 := by
  cases c with
  | rest => rfl
  | fret n =>
    obtain ⟨h1, _, h3⟩ := toDigits_facts n (by simpa [validCell] using Nat.lt_succ_of_le hc)
    have hpos : 1 ≤ (Nat.toDigits 10 n).length := List.length_pos.mpr h1
    simp only [pad2, cellStr, List.length_append, List.length_replicate]
    omega

theorem padCell_head (c : Cell) (hc : validCell c) :
    ∃ d t, pad2 (cellStr c) = d :: t ∧ d ≠ '-' := by
  cases c with
  | rest => exact ⟨' ', ['-'], rfl, by decide⟩
  | fret n =>
    obtain ⟨h1, h2, h3⟩ := toDigits_facts n (by simpa [validCell] using Nat.lt_succ_of_le hc)
    match hds : Nat.toDigits 10 n, h1 with
    | d :: t, _ =>
      have hdig : d.isDigit = true := by
        rw [hds] at h2
        simp only [List.all_cons, Bool.and_eq_true] at h2
        exact h2.1
      have hd : d ≠ '-' := by
        intro h; rw [h] at hdig; exact absurd hdig (by decide)
      have hlen : (d :: t).length ≤ 2 := hds ▸ h3
      simp only [List.length_cons] at hlen
      have : t.length = 0 ∨ t.length = 1 := by omega
      rcases this with h0 | h0
      · rw [List.length_eq_zero] at h0
        subst h0
        exact ⟨' ', [d], by simp [pad2, cellStr, hds, List.replicate], by decide⟩
      · obtain ⟨a, ha⟩ : ∃ a, t = [a] := List.length_eq_one.mp h0
        subst ha
        exact ⟨d, [a], by simp [pad2, cellStr, hds, List.replicate], hd⟩

theorem rowBody_nil : rowBody [] = [] := rfl

theorem rowBody_single (c : Cell) : rowBody [c] = pad2 (cellStr c) := rfl

theorem rowBody_cons_cons (c c2 : Cell) (cs : List Cell) :
    rowBody (c :: c2 :: cs) = pad2 (cellStr c) ++ '-' :: rowBody (c2 :: cs) := rfl

theorem rowBody_head_ne (c2 : Cell) (hc : validCell c2) (cs : List Cell) :
    (rowBody (c2 :: cs)).head? ≠ some '-' := by
  obtain ⟨d, t, heq, hd⟩ := padCell_head c2 hc
  cases cs with
  | nil => rw [rowBody_single, heq]; simp [hd]
  | cons c3 cs3 => rw [rowBody_cons_cons, heq]; simp [hd]

theorem rowTokens_cons (c c2 : Cell) (cs : List Cell) :
    rowTokens (c :: c2 :: cs) = tokenOf c :: rowTokens (c2 :: cs) := by
  unfold rowTokens
  rw [List.getLast?_cons_cons]
  cases h : (c2 :: cs).getLast? with
  | none => simp at h
  | some cl =>
    cases cl with
    | rest =>
      simp only [List.map_cons]
      have hne : (List.map tokenOf cs).length + 1 ≠ 0 := by omega
      rw [show tokenOf c :: tokenOf c2 :: List.map tokenOf cs =
        tokenOf c :: (tokenOf c2 :: List.map tokenOf cs) from rfl]
      rw [List.dropLast_cons_of_ne_nil (by simp)]
    | fret n => simp

theorem tokenize_rowBody (cells : List Cell) (hv : ∀ c ∈ cells, validCell c) :
    ∀ f, (rowBody cells).length ≤ f → tokenizeF f (rowBody cells) = rowTokens cells := by
  induction cells with
  | nil => intro f _; rw [rowBody_nil, tokenizeF_nil]; rfl
  | cons c cs ih =>
    intro f hf
    cases cs with
    | nil =>
      cases c with
      | rest =>
        have hb : rowBody [Cell.rest] = [' ', '-'] := rfl
        rw [hb] at hf ⊢
        simp only [List.length_cons, List.length_nil] at hf
        obtain ⟨f2, rfl⟩ : ∃ k, f = k + 2 := ⟨f - 2, by omega⟩
        rw [show f2 + 2 = (f2 + 1) + 1 from rfl, tokenizeF_space,
          tokenizeF_dash f2 [] (by simp), tokenizeF_nil]
        rfl
      | fret n =>
        have hvn : validCell (Cell.fret n) := hv _ (by simp)
        obtain ⟨h1, h2, h3⟩ := toDigits_facts n (by simpa [validCell] using Nat.lt_succ_of_le hvn)
        have hlen2 : (rowBody [Cell.fret n]).length = 2 := by
          rw [rowBody_single]; exact padCell_length _ hvn
        rw [hlen2] at hf
        obtain ⟨f2, rfl⟩ : ∃ k, f = k + 2 := ⟨f - 2, by omega⟩
        rw [rowBody_single]
        have hpos : 1 ≤ (Nat.toDigits 10 n).length := List.length_pos.mpr h1
        have hcase : (Nat.toDigits 10 n).length = 1 ∨ (Nat.toDigits 10 n).length = 2 := by omega
        have hnil : ∀ d : Char, ([] : List Char).head? = some d → d.isDigit = false := by
          intro d hd; simp at hd
        rcases hcase with hl1 | hl2
        · rw [show pad2 (cellStr (Cell.fret n)) = ' ' :: Nat.toDigits 10 n by
            simp [pad2, cellStr, hl1, List.replicate]]
          rw [show f2 + 2 = (f2 + 1) + 1 from rfl, tokenizeF_space]
          rw [show Nat.toDigits 10 n = Nat.toDigits 10 n ++ [] by simp]
          rw [tokenizeF_digits f2 _ [] h1 h2 hnil, tokenizeF_nil]
          simp [rowTokens, tokenOf]
        · rw [show pad2 (cellStr (Cell.fret n)) = Nat.toDigits 10 n by
            simp [pad2, cellStr, hl2, List.replicate]]
          rw [show f2 + 2 = (f2 + 1) + 1 from rfl]
          rw [show Nat.toDigits 10 n = Nat.toDigits 10 n ++ [] by simp]
          rw [tokenizeF_digits (f2 + 1) _ [] h1 h2 hnil, tokenizeF_nil]
          simp [rowTokens, tokenOf]
    | cons c2 cs2 =>
      have hvc : validCell c := hv _ (by simp)
      have hvc2 : validCell c2 := hv _ (by simp)
      have hv2 : ∀ x ∈ c2 :: cs2, validCell x := by
        intro x hx; exact hv _ (by simp [hx])
      have hblen : (rowBody (c :: c2 :: cs2)).length = (rowBody (c2 :: cs2)).length + 3 := by
        rw [rowBody_cons_cons]
        simp [padCell_length c hvc]
        omega
      rw [hblen] at hf
      obtain ⟨f3, rfl⟩ : ∃ k, f = k + 3 := ⟨f - 3, by omega⟩
      have hfr : (rowBody (c2 :: cs2)).length ≤ f3 := by omega
      have hhead := rowBody_head_ne c2 hvc2 cs2
      rw [rowBody_cons_cons, rowTokens_cons]
      cases c with
      | rest =>
        rw [show pad2 (cellStr Cell.rest) ++ '-' :: rowBody (c2 :: cs2) =
          ' ' :: '-' :: '-' :: rowBody (c2 :: cs2) from rfl]
        rw [show f3 + 3 = (f3 + 2) + 1 from rfl, tokenizeF_space,
          show f3 + 2 = (f3 + 1) + 1 from rfl, tokenizeF_dashdash]
        rw [show f3 + 1 = f3 + 1 from rfl]
        have ihr := ih hv2 (f3 + 1) (by omega)
        rw [ihr]
        rfl
      | fret n =>
        obtain ⟨h1, h2, h3⟩ := toDigits_facts n
          (by simpa [validCell] using Nat.lt_succ_of_le hvc)
        have hpos : 1 ≤ (Nat.toDigits 10 n).length := List.length_pos.mpr h1
        have hcase : (Nat.toDigits 10 n).length = 1 ∨ (Nat.toDigits 10 n).length = 2 := by omega
        have hdashhead : ∀ d : Char, ('-' :: rowBody (c2 :: cs2)).head? = some d →
            d.isDigit = false := by
          intro d hd
          simp only [List.head?_cons, Option.some.injEq] at hd
          rw [← hd]; decide
        rcases hcase with hl1 | hl2
        · rw [show pad2 (cellStr (Cell.fret n)) = ' ' :: Nat.toDigits 10 n by
            simp [pad2, cellStr, hl1, List.replicate]]
          rw [show (' ' :: Nat.toDigits 10 n) ++ '-' :: rowBody (c2 :: cs2) =
            ' ' :: (Nat.toDigits 10 n ++ '-' :: rowBody (c2 :: cs2)) from rfl]
          rw [show f3 + 3 = (f3 + 2) + 1 from rfl, tokenizeF_space,
            show f3 + 2 = (f3 + 1) + 1 from rfl,
            tokenizeF_digits (f3 + 1) _ _ h1 h2 hdashhead,
            tokenizeF_dash f3 _ hhead]
          rw [ih hv2 f3 hfr]
          rfl
        · rw [show pad2 (cellStr (Cell.fret n)) = Nat.toDigits 10 n by
            simp [pad2, cellStr, hl2, List.replicate]]
          rw [show f3 + 3 = (f3 + 2) + 1 from rfl,
            tokenizeF_digits (f3 + 2) _ _ h1 h2 hdashhead,
            show f3 + 2 = (f3 + 1) + 1 from rfl,
            tokenizeF_dash (f3 + 1) _ hhead]
          rw [ih hv2 (f3 + 1) (by omega)]
          rfl

theorem splitNl_no_nl (l : List Char) (h : '\n' ∉ l) : splitNl l = [l] := by
  induction l with
  | nil => rfl
  | cons c t ih =>
    have hc : ¬(c = '\n') := fun hc => h (by simp [hc])
    have ht : '\n' ∉ t := fun ht => h (by simp [ht])
    simp only [splitNl, if_neg hc, ih ht]

theorem splitNl_append (x r : List Char) (h : '\n' ∉ x) :
    splitNl (x ++ '\n' :: r) = x :: splitNl r := by
  induction x with
  | nil => simp [splitNl]
  | cons c t ih =>
    have hc : ¬(c = '\n') := fun hc => h (by simp [hc])
    have ht : '\n' ∉ t := fun ht => h (by simp [ht])
    simp only [List.cons_append, splitNl, if_neg hc]
    rw [show t.append ('\n' :: r) = t ++ '\n' :: r from rfl, ih ht]

theorem splitNl_joinSep : ∀ ls : List (List Char), ls ≠ [] → (∀ l ∈ ls, '\n' ∉ l) →
    splitNl (joinSep '\n' ls) = ls := by
  intro ls
  induction ls with
  | nil => intro h; cases h rfl
  | cons x xs ih =>
    intro _ h
    cases xs with
    | nil => exact splitNl_no_nl x (h x (by simp))
    | cons y ys =>
      rw [show joinSep '\n' (x :: y :: ys) = x ++ '\n' :: joinSep '\n' (y :: ys) from rfl]
      rw [splitNl_append x _ (h x (by simp))]
      rw [ih (by simp) (fun l hl => h l (by simp [hl]))]

theorem pyStrip_id (l : List Char) (h1 : ∀ c, l.head? = some c → c.isWhitespace = false)
    (h2 : ∀ c, l.getLast? = some c → c.isWhitespace = false) : pyStrip l = l := by
  unfold pyStrip
  have hd : l.dropWhile Char.isWhitespace = l := by
    cases l with
    | nil => rfl
    | cons c t => simp [List.dropWhile_cons, h1 c rfl]
  rw [hd]
  have hrev : l.reverse.dropWhile Char.isWhitespace = l.reverse := by
    cases hr : l.reverse with
    | nil => rfl
    | cons c t =>
      have hc : l.getLast? = some c := by rw [← List.head?_reverse, hr]; rfl
      simp [List.dropWhile_cons, h2 c hc]
  rw [hrev, List.reverse_reverse]

theorem rowBody_chars (cells : List Cell) (hv : ∀ c ∈ cells, validCell c) :
    ∀ ch ∈ rowBody cells, ch = ' ' ∨ ch = '-' ∨ ch.isDigit = true := by
  induction cells with
  | nil => intro ch hch; simp [rowBody_nil] at hch
  | cons c cs ih =>
    have hvc : validCell c := hv _ (by simp)
    have hpc : ∀ ch ∈ pad2 (cellStr c), ch = ' ' ∨ ch = '-' ∨ ch.isDigit = true := by
      cases c with
      | rest =>
        intro ch hch
        rw [show pad2 (cellStr Cell.rest) = [' ', '-'] from rfl] at hch
        simp only [List.mem_cons, List.not_mem_nil, or_false] at hch
        rcases hch with rfl | rfl
        · left; rfl
        · right; left; rfl
      | fret n =>
        intro ch hch
        obtain ⟨_, h2, _⟩ := toDigits_facts n
          (by simpa [validCell] using Nat.lt_succ_of_le hvc)
        simp only [pad2, cellStr, List.mem_append, List.mem_replicate] at hch
        rcases hch with ⟨_, rfl⟩ | hch
        · left; rfl
        · right; right; exact List.all_eq_true.mp h2 ch hch
    cases cs with
    | nil =>
      intro ch hch
      rw [rowBody_single] at hch
      exact hpc ch hch
    | cons c2 cs2 =>
      intro ch hch
      rw [rowBody_cons_cons] at hch
      simp only [List.mem_append, List.mem_cons] at hch
      rcases hch with hch | rfl | hch
      · exact hpc ch hch
      · right; left; rfl
      · exact ih (fun x hx => hv x (by simp [hx])) ch hch

theorem rowLine_no_nl (lbl : Char) (cells : List Cell) (hlbl : lbl ≠ '\n')
    (hv : ∀ c ∈ cells, validCell c) : '\n' ∉ rowLine lbl cells := by
  intro hmem
  unfold rowLine at hmem
  simp only [List.mem_cons, List.mem_append, List.not_mem_nil] at hmem
  rcases hmem with h | h | h
  · exact hlbl h.symm
  · exact absurd h.symm (by decide)
  · rcases h with h | h
    · rcases rowBody_chars cells hv _ h with h1 | h1 | h1
      · exact absurd h1 (by decide)
      · exact absurd h1 (by decide)
      · exact absurd h1 (by decide)
    · simp at h

theorem rowLine_getLast (lbl : Char) (cells : List Cell) :
    (rowLine lbl cells).getLast? = some '|' := by
  unfold rowLine
  rw [show lbl :: '|' :: (rowBody cells ++ ['|']) =
    (lbl :: '|' :: rowBody cells) ++ ['|'] by simp]
  exact List.getLast?_concat _

theorem pyStrip_rowLine (lbl : Char) (cells : List Cell) (hlbl : lbl.isWhitespace = false) :
    pyStrip (rowLine lbl cells) = rowLine lbl cells := by
  refine pyStrip_id _ ?_ ?_
  · intro c hc
    rw [show (rowLine lbl cells).head? = some lbl from rfl] at hc
    obtain rfl := Option.some.inj hc
    exact hlbl
  · intro c hc
    rw [rowLine_getLast] at hc
    obtain rfl := Option.some.inj hc
    decide

theorem bodyOf_rowLine (lbl : Char) (cells : List Cell) (hlbl : (lbl != '|') = true) :
    bodyOf (rowLine lbl cells) = rowBody cells := by
  unfold bodyOf rowLine
  rw [if_pos (by simp : '|' ∈ lbl :: '|' :: (rowBody cells ++ ['|']))]
  have h1 : (lbl :: '|' :: (rowBody cells ++ ['|'])).dropWhile (fun c => c != '|') =
      '|' :: (rowBody cells ++ ['|']) := by
    simp [List.dropWhile_cons, hlbl]
  rw [h1]
  simp only [List.tail_cons]
  rw [if_pos (by simp : '|' ∈ rowBody cells ++ ['|'])]
  rw [List.reverse_append]
  simp only [List.reverse_cons, List.reverse_nil, List.nil_append, List.singleton_append]
  have h2 : ('|' :: (rowBody cells).reverse).dropWhile (fun c => c != '|') =
      '|' :: (rowBody cells).reverse := by
    simp [List.dropWhile_cons]
  rw [h2]
  simp

theorem foldl_max_acc_le (rows : List (List (List Char))) (a : ℕ) :
    a ≤ rows.foldl (fun m r => max m r.length) a := by
  induction rows generalizing a with
  | nil => simp
  | cons r rs ih => exact le_trans (le_max_left a r.length) (ih _)

theorem foldl_max_mem_le {rows : List (List (List Char))} {r : List (List Char)}
    (hr : r ∈ rows) (a : ℕ) :
    r.length ≤ rows.foldl (fun m r => max m r.length) a := by
  induction rows generalizing a with
  | nil => simp at hr
  | cons x xs ih =>
    rcases List.mem_cons.mp hr with rfl | hr
    · exact le_trans (le_max_right a r.length) (foldl_max_acc_le xs _)
    · exact ih hr _

theorem foldl_max_le {rows : List (List (List Char))} {N : ℕ} (a : ℕ) (ha : a ≤ N)
    (h : ∀ r ∈ rows, r.length ≤ N) :
    rows.foldl (fun m r => max m r.length) a ≤ N := by
  induction rows generalizing a with
  | nil => simpa
  | cons x xs ih =>
    refine ih _ (max_le ha (h x (by simp))) ?_
    intro r hr
    exact h r (by simp [hr])

theorem rowTokens_length_le (cells : List Cell) : (rowTokens cells).length ≤ cells.length := by
  unfold rowTokens
  cases h : cells.getLast? with
  | none => simp
  | some cl =>
    cases cl with
    | rest => simp [List.length_dropLast]
    | fret n => simp

theorem rowTokens_length_of_fret {cells : List Cell} {n : ℕ}
    (h : cells.getLast? = some (Cell.fret n)) : (rowTokens cells).length = cells.length := by
  unfold rowTokens
  rw [h]
  simp

theorem rowTokens_pad (cells : List Cell) :
    rowTokens cells ++ List.replicate (cells.length - (rowTokens cells).length) ['-', '-'] =
      cells.map tokenOf := by
  unfold rowTokens
  cases h : cells.getLast? with
  | none =>
    have : cells = [] := List.getLast?_eq_none_iff.mp h
    subst this
    rfl
  | some cl =>
    have hne : cells ≠ [] := by
      intro hc; rw [hc] at h; simp at h
    cases cl with
    | rest =>
      have hmapne : cells.map tokenOf ≠ [] := by simpa using hne
      have hlen : cells.length ≥ 1 := List.length_pos.mpr hne
      have hdl : (cells.map tokenOf).dropLast.length = cells.length - 1 := by
        simp [List.length_dropLast]
      rw [hdl]
      have hrep : cells.length - (cells.length - 1) = 1 := by omega
      rw [hrep]
      have hlast : (cells.map tokenOf).getLast hmapne = ['-', '-'] := by
        have h1 : (cells.map tokenOf).getLast? = some (tokenOf (Cell.rest)) := by
          rw [List.getLast?_map, h]
          rfl
        have h2 : (cells.map tokenOf).getLast? = some ((cells.map tokenOf).getLast hmapne) :=
          List.getLast?_eq_getLast _ hmapne
        rw [h1] at h2
        exact (Option.some.inj h2).symm
      calc (cells.map tokenOf).dropLast ++ List.replicate 1 ['-', '-']
          = (cells.map tokenOf).dropLast ++ [(cells.map tokenOf).getLast hmapne] := by
            rw [hlast]; rfl
        _ = cells.map tokenOf := List.dropLast_append_getLast hmapne
    | fret n =>
      simp

/-- C1 (amended).  Tab text round-trip: for every well-formed six-string tab
grid (six rows of equal column count, cells rests or frets 0..24) whose LAST
column contains at least one fret, parsing the formatted text
(`parse_tabs_text` of the grid formatting of `format_tabs_as_text`) yields
exactly the grid's cells (as their tokens, rests as `--` and frets as their
digit runs) with the same column count.  A grid whose last column is all
rests loses that column (see the counterexample): the claim as stated, which
does not restrict the last column, fails. -/
theorem tab_text_roundtrip (grid : List (List Cell)) (N : ℕ)
    (hlen : grid.length = 6)
    (hrows : ∀ row ∈ grid, row.length = N)
    (hvalid : ∀ row ∈ grid, ∀ c ∈ row, validCell c)
    (hlast : ∃ row ∈ grid, ∃ n, row.getLast? = some (Cell.fret n)) :
    parse_tabs_text (formatGrid grid) =
      Except.ok (grid.map (fun row => row.map tokenOf), N) := by
  match grid, hlen with
  | [r1, r2, r3, r4, r5, r6], _ =>
    have hv1 : ∀ c ∈ r1, validCell c := hvalid r1 (by simp)
    have hv2 : ∀ c ∈ r2, validCell c := hvalid r2 (by simp)
    have hv3 : ∀ c ∈ r3, validCell c := hvalid r3 (by simp)
    have hv4 : ∀ c ∈ r4, validCell c := hvalid r4 (by simp)
    have hv5 : ∀ c ∈ r5, validCell c := hvalid r5 (by simp)
    have hv6 : ∀ c ∈ r6, validCell c := hvalid r6 (by simp)
    have hr1 : r1.length = N := hrows r1 (by simp)
    have hr2 : r2.length = N := hrows r2 (by simp)
    have hr3 : r3.length = N := hrows r3 (by simp)
    have hr4 : r4.length = N := hrows r4 (by simp)
    have hr5 : r5.length = N := hrows r5 (by simp)
    have hr6 : r6.length = N := hrows r6 (by simp)
    have hfmt : formatGrid [r1, r2, r3, r4, r5, r6] =
        joinSep '\n' [ruleLine, titleLine, ruleLine, rowLine 'e' r1, rowLine 'B' r2,
          rowLine 'G' r3, rowLine 'D' r4, rowLine 'A' r5, rowLine 'E' r6, ruleLine] := rfl
    have hnlr : '\n' ∉ ruleLine := by decide
    have hnlt : '\n' ∉ titleLine := by decide
    have hsplit : splitNl (joinSep '\n' [ruleLine, titleLine, ruleLine, rowLine 'e' r1,
        rowLine 'B' r2, rowLine 'G' r3, rowLine 'D' r4, rowLine 'A' r5, rowLine 'E' r6,
        ruleLine]) = [ruleLine, titleLine, ruleLine, rowLine 'e' r1, rowLine 'B' r2,
          rowLine 'G' r3, rowLine 'D' r4, rowLine 'A' r5, rowLine 'E' r6, ruleLine] := by
      refine splitNl_joinSep _ (by simp) ?_
      intro l hl
      simp only [List.mem_cons, List.not_mem_nil, or_false] at hl
      rcases hl with rfl | rfl | rfl | rfl | rfl | rfl | rfl | rfl | rfl | rfl
      · exact hnlr
      · exact hnlt
      · exact hnlr
      · exact rowLine_no_nl _ _ (by decide) hv1
      · exact rowLine_no_nl _ _ (by decide) hv2
      · exact rowLine_no_nl _ _ (by decide) hv3
      · exact rowLine_no_nl _ _ (by decide) hv4
      · exact rowLine_no_nl _ _ (by decide) hv5
      · exact rowLine_no_nl _ _ (by decide) hv6
      · exact hnlr
    have hpsr : pyStrip ruleLine = ruleLine := by decide
    have hpst : pyStrip titleLine = titleLine := by decide
    have hps1 : pyStrip (rowLine 'e' r1) = rowLine 'e' r1 := pyStrip_rowLine _ _ (by decide)
    have hps2 : pyStrip (rowLine 'B' r2) = rowLine 'B' r2 := pyStrip_rowLine _ _ (by decide)
    have hps3 : pyStrip (rowLine 'G' r3) = rowLine 'G' r3 := pyStrip_rowLine _ _ (by decide)
    have hps4 : pyStrip (rowLine 'D' r4) = rowLine 'D' r4 := pyStrip_rowLine _ _ (by decide)
    have hps5 : pyStrip (rowLine 'A' r5) = rowLine 'A' r5 := pyStrip_rowLine _ _ (by decide)
    have hps6 : pyStrip (rowLine 'E' r6) = rowLine 'E' r6 := pyStrip_rowLine _ _ (by decide)
    have hier : ruleLine.isEmpty = false := by decide
    have hiet : titleLine.isEmpty = false := by decide
    have hie1 : (rowLine 'e' r1).isEmpty = false := rfl
    have hie2 : (rowLine 'B' r2).isEmpty = false := rfl
    have hie3 : (rowLine 'G' r3).isEmpty = false := rfl
    have hie4 : (rowLine 'D' r4).isEmpty = false := rfl
    have hie5 : (rowLine 'A' r5).isEmpty = false := rfl
    have hie6 : (rowLine 'E' r6).isEmpty = false := rfl
    have hslr : isStringLine ruleLine = false := by decide
    have hslt : isStringLine titleLine = false := by decide
    have hsl1 : isStringLine (rowLine 'e' r1) = true := rfl
    have hsl2 : isStringLine (rowLine 'B' r2) = true := rfl
    have hsl3 : isStringLine (rowLine 'G' r3) = true := rfl
    have hsl4 : isStringLine (rowLine 'D' r4) = true := rfl
    have hsl5 : isStringLine (rowLine 'A' r5) = true := rfl
    have hsl6 : isStringLine (rowLine 'E' r6) = true := rfl
    have hbody1 : bodyOf (rowLine 'e' r1) = rowBody r1 := bodyOf_rowLine _ _ (by decide)
    have hbody2 : bodyOf (rowLine 'B' r2) = rowBody r2 := bodyOf_rowLine _ _ (by decide)
    have hbody3 : bodyOf (rowLine 'G' r3) = rowBody r3 := bodyOf_rowLine _ _ (by decide)
    have hbody4 : bodyOf (rowLine 'D' r4) = rowBody r4 := bodyOf_rowLine _ _ (by decide)
    have hbody5 : bodyOf (rowLine 'A' r5) = rowBody r5 := bodyOf_rowLine _ _ (by decide)
    have hbody6 : bodyOf (rowLine 'E' r6) = rowBody r6 := bodyOf_rowLine _ _ (by decide)
    have htok1 : tokenize (rowBody r1) = rowTokens r1 := tokenize_rowBody r1 hv1 _ le_rfl
    have htok2 : tokenize (rowBody r2) = rowTokens r2 := tokenize_rowBody r2 hv2 _ le_rfl
    have htok3 : tokenize (rowBody r3) = rowTokens r3 := tokenize_rowBody r3 hv3 _ le_rfl
    have htok4 : tokenize (rowBody r4) = rowTokens r4 := tokenize_rowBody r4 hv4 _ le_rfl
    have htok5 : tokenize (rowBody r5) = rowTokens r5 := tokenize_rowBody r5 hv5 _ le_rfl
    have htok6 : tokenize (rowBody r6) = rowTokens r6 := tokenize_rowBody r6 hv6 _ le_rfl
    have hmax : ([rowTokens r1, rowTokens r2, rowTokens r3, rowTokens r4, rowTokens r5,
        rowTokens r6].foldl (fun m r => max m r.length) 0) = N := by
      apply le_antisymm
      · refine foldl_max_le 0 (Nat.zero_le N) ?_
        intro r hr
        simp only [List.mem_cons, List.not_mem_nil, or_false] at hr
        rcases hr with rfl | rfl | rfl | rfl | rfl | rfl
        · exact le_trans (rowTokens_length_le r1) (le_of_eq hr1)
        · exact le_trans (rowTokens_length_le r2) (le_of_eq hr2)
        · exact le_trans (rowTokens_length_le r3) (le_of_eq hr3)
        · exact le_trans (rowTokens_length_le r4) (le_of_eq hr4)
        · exact le_trans (rowTokens_length_le r5) (le_of_eq hr5)
        · exact le_trans (rowTokens_length_le r6) (le_of_eq hr6)
      · obtain ⟨row, hrowmem, n, hlastrow⟩ := hlast
        have hrowlen : row.length = N := hrows row hrowmem
        have hfull : (rowTokens row).length = N := by
          rw [rowTokens_length_of_fret hlastrow, hrowlen]
        have hmem2 : rowTokens row ∈ [rowTokens r1, rowTokens r2, rowTokens r3,
            rowTokens r4, rowTokens r5, rowTokens r6] := by
          simp only [List.mem_cons, List.not_mem_nil, or_false] at hrowmem
          rcases hrowmem with rfl | rfl | rfl | rfl | rfl | rfl <;> simp
        calc N = (rowTokens row).length := hfull.symm
          _ ≤ _ := foldl_max_mem_le hmem2 0
    have hpad1 : rowTokens r1 ++ List.replicate (N - (rowTokens r1).length) ['-', '-'] =
        r1.map tokenOf := by rw [← hr1]; exact rowTokens_pad r1
    have hpad2 : rowTokens r2 ++ List.replicate (N - (rowTokens r2).length) ['-', '-'] =
        r2.map tokenOf := by rw [← hr2]; exact rowTokens_pad r2
    have hpad3 : rowTokens r3 ++ List.replicate (N - (rowTokens r3).length) ['-', '-'] =
        r3.map tokenOf := by rw [← hr3]; exact rowTokens_pad r3
    have hpad4 : rowTokens r4 ++ List.replicate (N - (rowTokens r4).length) ['-', '-'] =
        r4.map tokenOf := by rw [← hr4]; exact rowTokens_pad r4
    have hpad5 : rowTokens r5 ++ List.replicate (N - (rowTokens r5).length) ['-', '-'] =
        r5.map tokenOf := by rw [← hr5]; exact rowTokens_pad r5
    have hpad6 : rowTokens r6 ++ List.replicate (N - (rowTokens r6).length) ['-', '-'] =
        r6.map tokenOf := by rw [← hr6]; exact rowTokens_pad r6
    rw [hfmt]
    unfold parse_tabs_text
    rw [hsplit]
    simp only [List.map_cons, List.map_nil, hpsr, hpst, hps1, hps2, hps3, hps4, hps5, hps6,
      List.filter_cons, List.filter_nil, hier, hiet, hie1, hie2, hie3, hie4, hie5, hie6,
      Bool.not_false, if_true, if_false, Bool.not_true,
      hslr, hslt, hsl1, hsl2, hsl3, hsl4, hsl5, hsl6]
    simp only [Bool.false_eq_true, eq_self_iff_true, if_true, if_false]
    rw [if_neg (by simp)]
    rw [show List.take 6 [rowLine 'e' r1, rowLine 'B' r2, rowLine 'G' r3, rowLine 'D' r4,
      rowLine 'A' r5, rowLine 'E' r6] = [rowLine 'e' r1, rowLine 'B' r2, rowLine 'G' r3,
      rowLine 'D' r4, rowLine 'A' r5, rowLine 'E' r6] from rfl]
    simp only [List.map_cons, List.map_nil,
      hbody1, hbody2, hbody3, hbody4, hbody5, hbody6,
      htok1, htok2, htok3, htok4, htok5, htok6]
    rw [hmax]
    simp only [List.map_cons, List.map_nil, hpad1, hpad2, hpad3, hpad4, hpad5, hpad6]

theorem tab_text_roundtrip_witness :
    ([[Cell.fret 0, Cell.rest], [Cell.rest, Cell.fret 3], [Cell.rest, Cell.rest],
        [Cell.rest, Cell.rest], [Cell.rest, Cell.rest],
        [Cell.rest, Cell.rest]] : List (List Cell)).length = 6 ∧
      parse_tabs_text (formatGrid [[Cell.fret 0, Cell.rest], [Cell.rest, Cell.fret 3],
          [Cell.rest, Cell.rest], [Cell.rest, Cell.rest], [Cell.rest, Cell.rest],
          [Cell.rest, Cell.rest]]) =
        Except.ok (([[Cell.fret 0, Cell.rest], [Cell.rest, Cell.fret 3],
          [Cell.rest, Cell.rest], [Cell.rest, Cell.rest], [Cell.rest, Cell.rest],
          [Cell.rest, Cell.rest]] : List (List Cell)).map (fun row => row.map tokenOf), 2) :=
  ⟨by decide,
    tab_text_roundtrip
      [[Cell.fret 0, Cell.rest], [Cell.rest, Cell.fret 3], [Cell.rest, Cell.rest],
        [Cell.rest, Cell.rest], [Cell.rest, Cell.rest], [Cell.rest, Cell.rest]] 2
      (by decide)
      (by decide)
      (by intro row hrow c hc
          simp only [List.mem_cons, List.not_mem_nil, or_false] at hrow
          rcases hrow with rfl | rfl | rfl | rfl | rfl | rfl <;>
            (simp only [List.mem_cons, List.not_mem_nil, or_false] at hc
             rcases hc with rfl | rfl <;> simp [validCell]))
      ⟨[Cell.rest, Cell.fret 3], by decide, 3, rfl⟩⟩

/-- C1 counterexample.  The 6-row, 1-column all-rest grid is well-formed
(equal column counts, cells rests or frets 0..24), but parsing its formatted
text yields 0 columns, not 1: each row's trailing rest merges with nothing
and its token is lost, so the round-trip fails on grids whose last column is
all rests. -/
theorem tab_text_roundtrip_cex :
    parse_tabs_text (formatGrid (List.replicate 6 [Cell.rest])) ≠
      Except.ok ((List.replicate 6 [Cell.rest]).map (fun row => row.map tokenOf), 1) ∧
    parse_tabs_text (formatGrid (List.replicate 6 [Cell.rest])) =
      Except.ok (List.replicate 6 [], 0) := by
  constructor <;> decide

/-! ## Tab generation pipeline (`tab_generator.py`) and the empty-grid case -/

/-- A placed tab record appended to `self.tabs[string]`
(`tab_generator.py`, lines 68-75). -/
structure TabEntry where
  fret : ℤ
  time : ℚ
  note : ℤ
  duration : ℚ
deriving DecidableEq

/-- An input note dict as read by `generate_tabs`: `note_info.get("note")`
(`none` models a missing or empty name), `note_info.get("start_time", 0.0)`
and `note_info.get("duration", 0.0)`. -/
structure NoteIn where
  note : Option ℤ
  start_time : ℚ
  duration : ℚ
deriving DecidableEq

/-- The loop body of `generate_tabs` (`tab_generator.py`, lines 61-75):
state is (`self.tabs` as a 6-list indexed by string-1, `self._last_position`).
An unnamed note is skipped; otherwise the chosen position is appended to its
string's list and becomes the last position. -/
def generateStep (max_fret : ℤ) (st : List (List TabEntry) × Option (ℤ × ℤ))
    (note_info : NoteIn) : List (List TabEntry) × Option (ℤ × ℤ) :=
  match note_info.note with
  | none => st
  | some name =>
    let positions := note_to_tab_positions max_fret name
    let sf := _choose_position st.2 positions
    let idx := (sf.1 - 1).toNat
    (st.1.set idx (st.1.getD idx [] ++
      [⟨sf.2, note_info.start_time, name, note_info.duration⟩]), some sf)

/-- `generate_tabs` (`tab_generator.py`, lines 56-77). -/
def generate_tabs (max_fret : ℤ) (notes : List NoteIn) : List (List TabEntry) :=
  (notes.foldl (generateStep max_fret) ([[], [], [], [], [], []], none)).1

/-- `sorted({...})`: insertion into a sorted duplicate-free list. -/
def insertSortedSet (x : ℚ) : List ℚ → List ℚ
  | [] => [x]
  | y :: ys =>
    if x = y then y :: ys
    else if x < y then x :: y :: ys
    else y :: insertSortedSet x ys

/-- `sorted({tab["time"] for ...})` (`tab_generator.py`, line 86). -/
def sortedSet (l : List ℚ) : List ℚ := l.foldl (fun acc x => insertSortedSet x acc) []

/-- The `strings_display` grid of `format_tabs_as_text` (`tab_generator.py`,
lines 90-94): one cell per (string, time), a fret when some tab on that
string lies within 0.01 s of the column time.  Frets are nonnegative (they
come from `_choose_position`), so `toNat` is exact. -/
def stringsDisplay (tabs : List (List TabEntry)) : List (List Cell) :=
  let all_times := sortedSet (tabs.flatMap (fun row => row.map (fun tab => tab.time)))
  tabs.map (fun row =>
    all_times.map (fun t =>
      match row.find? (fun tab => |tab.time - t| < mkRat 1 100) with
      | some tab => Cell.fret tab.fret.toNat
      | none => Cell.rest))

/-- `format_tabs_as_text` (`tab_generator.py`, lines 79-104): the literal
`"No tabs generated"` when no note was placed, otherwise the header, the six
formatted rows of `strings_display`, and the footer. -/
def format_tabs_as_text (tabs : List (List TabEntry)) : List Char :=
  let all_times := sortedSet (tabs.flatMap (fun row => row.map (fun tab => tab.time)))
  if all_times.isEmpty then "No tabs generated".toList
  else formatGrid (stringsDisplay tabs)

/-- C10.  Empty-grid edge case: when no notes were placed (the input is empty
or every note is unnamed), `format_tabs_as_text` returns the literal string
`"No tabs generated"`, and `parse_tabs_text` applied to that string fails
with the six-string-lines error, so the format/parse round trip can hold
only for grids with at least one placed note. -/
theorem empty_grid_edge_case (max_fret : ℤ) (notes : List NoteIn)
    (h : ∀ n ∈ notes, n.note = none) :
    format_tabs_as_text (generate_tabs max_fret notes) = "No tabs generated".toList ∧
      parse_tabs_text ("No tabs generated".toList) =
        Except.error "Tabs text does not contain 6 string lines.".toList := by
  constructor
  · have key : ∀ l : List NoteIn, (∀ n ∈ l, n.note = none) →
        ∀ st : List (List TabEntry) × Option (ℤ × ℤ),
        l.foldl (generateStep max_fret) st = st := by
      intro l hl
      induction l with
      | nil => intro st; rfl
      | cons n ns ih =>
        intro st
        rw [List.foldl_cons]
        have hn : n.note = none := hl n (by simp)
        have hstep : generateStep max_fret st n = st := by
          unfold generateStep
          rw [hn]
        rw [hstep]
        exact ih (fun x hx => hl x (by simp [hx])) st
    have hgen : generate_tabs max_fret notes = [[], [], [], [], [], []] := by
      unfold generate_tabs
      rw [key notes h]
    rw [hgen]
    rfl
  · decide

theorem empty_grid_edge_case_witness :
    (∀ n ∈ [(⟨none, 0, 1⟩ : NoteIn)], n.note = none) ∧
      format_tabs_as_text (generate_tabs 15 [⟨none, 0, 1⟩]) = "No tabs generated".toList :=
  ⟨by decide, (empty_grid_edge_case 15 [⟨none, 0, 1⟩] (by decide)).1⟩

/-! ## Pitch refiner (`tab_refiner.py`) -/

/-- `_closest_refined_fret` (`tab_refiner.py`, lines 51-76): try fret deltas
`-12..12` (in order), keep the first candidate strictly improving the score
`|cand_midi - target_midi| + 0.04 * |delta|`; the initial best is the current
fret with score `|current_midi - target_midi|`. -/
def _closest_refined_fret (current_fret : ℤ) (string_num : ℤ) (target_midi : ℚ)
    (max_fret : ℤ) : ℤ :=
  let open_midi := openStringMidi string_num
  let current_midi : ℚ := ((open_midi + current_fret : ℤ) : ℚ)
  (((List.range 25).map (fun i => (i : ℤ) - 12)).foldl
    (fun best delta =>
      let cand_fret := current_fret + delta
      if 0 ≤ cand_fret ∧ cand_fret ≤ max_fret then
        let cand_midi : ℚ := ((open_midi + cand_fret : ℤ) : ℚ)
        let score := |cand_midi - target_midi| + mkRat 4 100 * |(delta : ℚ)|
        if score < best.2 then (cand_fret, score) else best
      else best)
    (current_fret, |current_midi - target_midi|)).1

/-- Per-column target lookup of `refine_tabs_with_original`
(`tab_refiner.py`, lines 110-117): the MIDI-track frame nearest the column
time, clamped into range; `none` models a non-finite entry (the `continue`
branch).  The track itself comes from the external `librosa.yin` +
`hz_to_midi` run on the reference audio. -/
def columnTarget (midi_track : List (Option ℚ)) (step : ℚ) (sr hop : ℕ) (c : ℕ) :
    Option ℚ :=
  let t : ℚ := (c : ℚ) * step
  let frame_idx := pyRound (t * (sr : ℚ) / (hop : ℚ))
  let clamped := max 0 (min frame_idx ((midi_track.length : ℤ) - 1))
  midi_track.getD clamped.toNat none

/-- The per-cell update of `refine_tabs_with_original` (`tab_refiner.py`,
lines 119-135): rests and columns without a finite target are untouched; a
fret is replaced by `_closest_refined_fret` only when it differs and the
absolute error to the target improves by at least 0.8. -/
def refineCell (max_fret : ℤ) (string_num : ℤ) (target : Option ℚ) (cell : Cell) : Cell :=
  match target, cell with
  | none, cl => cl
  | some _, Cell.rest => Cell.rest
  | some t, Cell.fret n =>
    let new_fret := _closest_refined_fret (n : ℤ) string_num t max_fret
    if new_fret ≠ (n : ℤ) ∧
        mkRat 4 5 ≤ |(((openStringMidi string_num + n : ℤ)) : ℚ) - t| -
          |(((openStringMidi string_num + new_fret : ℤ)) : ℚ) - t| then
      Cell.fret new_fret.toNat
    else Cell.fret n

/-- The grid loop of `refine_tabs_with_original` (`tab_refiner.py`,
lines 108-135): `for c in range(cols): for row in range(6)`, rewriting
`grid[row][c]` in place; rows have exactly `cols` cells (guaranteed by
`parse_tabs_text`), string number is `row + 1`. -/
def refine_tabs_grid (midi_track : List (Option ℚ)) (step : ℚ) (sr hop : ℕ)
    (max_fret : ℤ) (cols : ℕ) (grid : List (List Cell)) : List (List Cell) :=
  let targets := (List.range cols).map (columnTarget midi_track step sr hop)
  List.zipWith (fun (r : ℕ) row =>
      List.zipWith (refineCell max_fret ((r : ℤ) + 1)) targets row)
    (List.range 6) grid

theorem closest_refined_fret_nonneg (current_fret string_num : ℤ) (t : ℚ) (max_fret : ℤ)
    (h : 0 ≤ current_fret) :
    0 ≤ _closest_refined_fret current_fret string_num t max_fret := by
  unfold _closest_refined_fret
  suffices h2 : ∀ (ds : List ℤ) (init : ℤ × ℚ), 0 ≤ init.1 →
      0 ≤ (ds.foldl
        (fun best delta =>
          let cand_fret := current_fret + delta
          if 0 ≤ cand_fret ∧ cand_fret ≤ max_fret then
            let cand_midi : ℚ := ((openStringMidi string_num + cand_fret : ℤ) : ℚ)
            let score := |cand_midi - t| + mkRat 4 100 * |(delta : ℚ)|
            if score < best.2 then (cand_fret, score) else best
          else best)
        init).1 by
    exact h2 _ _ h
  intro ds
  induction ds with
  | nil => intro init hi; exact hi
  | cons d rest ih =>
    intro init hi
    rw [List.foldl_cons]
    apply ih
    by_cases hc : 0 ≤ current_fret + d ∧ current_fret + d ≤ max_fret
    · simp only [if_pos hc]
      split_ifs with hs
      · exact hc.1
      · exact hi
    · simp only [if_neg hc]
      exact hi

theorem refineCell_rest_iff (mf s : ℤ) (tgt : Option ℚ) (cell : Cell) :
    refineCell mf s tgt cell = Cell.rest ↔ cell = Cell.rest := by
  cases tgt with
  | none => cases cell <;> simp [refineCell]
  | some t =>
    cases cell with
    | rest => simp [refineCell]
    | fret n =>
      simp only [refineCell]
      split_ifs <;> simp

theorem refineCell_fret (mf s : ℤ) (tgt : Option ℚ) (n m : ℕ)
    (hm : refineCell mf s tgt (Cell.fret n) = Cell.fret m) :
    m = n ∨ ∃ t, tgt = some t ∧
      |(((openStringMidi s + m : ℤ)) : ℚ) - t| ≤
        |(((openStringMidi s + n : ℤ)) : ℚ) - t| - mkRat 4 5 := by
  cases tgt with
  | none =>
    left
    simp only [refineCell] at hm
    exact (Cell.fret.injEq m n).mp (congrArg id hm.symm) |>.symm ▸ rfl
  | some t =>
    simp only [refineCell] at hm
    split_ifs at hm with hcond
    · right
      obtain ⟨hne, himp⟩ := hcond
      have hnn : 0 ≤ _closest_refined_fret (n : ℤ) s t mf :=
        closest_refined_fret_nonneg _ _ _ _ (Int.ofNat_nonneg n)
      have hmval : (m : ℤ) = _closest_refined_fret (n : ℤ) s t mf := by
        have := (Cell.fret.injEq _ _).mp hm
        rw [← this, Int.toNat_of_nonneg hnn]
      refine ⟨t, rfl, ?_⟩
      rw [hmval]
      linarith
    · left
      exact ((Cell.fret.injEq _ _).mp hm).symm

theorem refine_tabs_grid_length (midi_track : List (Option ℚ)) (step : ℚ) (sr hop : ℕ)
    (max_fret : ℤ) (cols : ℕ) (grid : List (List Cell)) (hlen : grid.length = 6) :
    (refine_tabs_grid midi_track step sr hop max_fret cols grid).length = 6 := by
  unfold refine_tabs_grid
  rw [List.length_zipWith, List.length_range, hlen]
  rfl

theorem refine_tabs_grid_cell (midi_track : List (Option ℚ)) (step : ℚ) (sr hop : ℕ)
    (max_fret : ℤ) (cols : ℕ) (grid : List (List Cell))
    (hlen : grid.length = 6) (hrows : ∀ row ∈ grid, row.length = cols)
    (i c : ℕ) (hi : i < 6) (hc : c < cols) :
    ((refine_tabs_grid midi_track step sr hop max_fret cols grid).getD i []).getD c
        Cell.rest =
      refineCell max_fret ((i : ℤ) + 1) (columnTarget midi_track step sr hop c)
        ((grid.getD i []).getD c Cell.rest) := by
  have hi6 : i < grid.length := by omega
  have hzlen : (refine_tabs_grid midi_track step sr hop max_fret cols grid).length = 6 :=
    refine_tabs_grid_length midi_track step sr hop max_fret cols grid hlen
  have hrowi : grid[i].length = cols := hrows grid[i] (List.getElem_mem hi6)
  have htlen : ((List.range cols).map (columnTarget midi_track step sr hop)).length = cols := by
    simp
  have hrow2 : (List.zipWith (refineCell max_fret ((i : ℤ) + 1))
      ((List.range cols).map (columnTarget midi_track step sr hop)) grid[i]).length = cols := by
    rw [List.length_zipWith, htlen, hrowi]
    simp
  have hilt : i < (refine_tabs_grid midi_track step sr hop max_fret cols grid).length := by
    omega
  have e1 : (refine_tabs_grid midi_track step sr hop max_fret cols grid).getD i [] =
      (refine_tabs_grid midi_track step sr hop max_fret cols grid)[i] :=
    List.getD_eq_getElem _ _ hilt
  have e2 : (refine_tabs_grid midi_track step sr hop max_fret cols grid)[i] =
      List.zipWith (refineCell max_fret ((i : ℤ) + 1))
        ((List.range cols).map (columnTarget midi_track step sr hop)) grid[i] := by
    simp only [refine_tabs_grid]
    rw [List.getElem_zipWith]
    rw [List.getElem_range]
  have hclt : c < (List.zipWith (refineCell max_fret ((i : ℤ) + 1))
      ((List.range cols).map (columnTarget midi_track step sr hop)) grid[i]).length := by
    omega
  have e3 : (List.zipWith (refineCell max_fret ((i : ℤ) + 1))
      ((List.range cols).map (columnTarget midi_track step sr hop)) grid[i]).getD c
        Cell.rest =
      (List.zipWith (refineCell max_fret ((i : ℤ) + 1))
        ((List.range cols).map (columnTarget midi_track step sr hop)) grid[i])[c] :=
    List.getD_eq_getElem _ _ hclt
  have hclt2 : c < ((List.range cols).map (columnTarget midi_track step sr hop)).length := by
    omega
  have hclt3 : c < grid[i].length := by omega
  have e4 : (List.zipWith (refineCell max_fret ((i : ℤ) + 1))
      ((List.range cols).map (columnTarget midi_track step sr hop)) grid[i])[c] =
      refineCell max_fret ((i : ℤ) + 1)
        ((List.range cols).map (columnTarget midi_track step sr hop))[c] grid[i][c] :=
    List.getElem_zipWith
  have e5 : ((List.range cols).map (columnTarget midi_track step sr hop))[c] =
      columnTarget midi_track step sr hop c := by
    rw [List.getElem_map, List.getElem_range]
  have e6 : (grid.getD i []).getD c Cell.rest = grid[i][c] := by
    rw [List.getD_eq_getElem _ _ hi6]
    exact List.getD_eq_getElem _ _ hclt3
  rw [e1, e2, e3, e4, e5, e6]

/-- C7.  PitchRefiner frame condition: for every parsed six-row grid (rows of
equal length `cols`) and every reference pitch track, `refine_tabs_with_original`
never changes the row count or any row's column count, never turns a rest
into a fret or a fret into a rest, and replaces a fret digit only when the
absolute pitch error to the column's target MIDI improves by at least 0.8. -/
theorem refiner_frame_condition (midi_track : List (Option ℚ)) (step : ℚ) (sr hop : ℕ)
    (max_fret : ℤ) (cols : ℕ) (grid : List (List Cell))
    (hlen : grid.length = 6) (hrows : ∀ row ∈ grid, row.length = cols) :
    (refine_tabs_grid midi_track step sr hop max_fret cols grid).length = grid.length ∧
    (∀ i, ((refine_tabs_grid midi_track step sr hop max_fret cols grid).getD i []).length =
      (grid.getD i []).length) ∧
    (∀ i c,
      ((refine_tabs_grid midi_track step sr hop max_fret cols grid).getD i []).getD c
          Cell.rest = Cell.rest ↔
        (grid.getD i []).getD c Cell.rest = Cell.rest) ∧
    (∀ i c n m, (grid.getD i []).getD c Cell.rest = Cell.fret n →
      ((refine_tabs_grid midi_track step sr hop max_fret cols grid).getD i []).getD c
          Cell.rest = Cell.fret m →
      m = n ∨ ∃ t, columnTarget midi_track step sr hop c = some t ∧
        |(((openStringMidi ((i : ℤ) + 1) + m : ℤ)) : ℚ) - t| ≤
          |(((openStringMidi ((i : ℤ) + 1) + n : ℤ)) : ℚ) - t| - mkRat 4 5) := by
  have hzlen : (refine_tabs_grid midi_track step sr hop max_fret cols grid).length = 6 :=
    refine_tabs_grid_length midi_track step sr hop max_fret cols grid hlen
  have hrowlen : ∀ i, i < 6 →
      ((refine_tabs_grid midi_track step sr hop max_fret cols grid).getD i []).length =
        cols := by
    intro i hi
    have hi6 : i < grid.length := by omega
    have hrowi : grid[i].length = cols := hrows grid[i] (List.getElem_mem hi6)
    simp only [refine_tabs_grid]
    rw [List.getD_eq_getElem _ _ (by
      rw [List.length_zipWith, List.length_range, hlen]; exact lt_min hi hi)]
    rw [List.getElem_zipWith, List.length_zipWith, hrowi]
    simp
  refine ⟨by rw [hzlen, hlen], ?_, ?_, ?_⟩
  · intro i
    by_cases hi : i < 6
    · have hi6 : i < grid.length := by omega
      rw [hrowlen i hi, List.getD_eq_getElem _ _ hi6]
      exact (hrows grid[i] (List.getElem_mem hi6)).symm
    · rw [List.getD_eq_default _ _ (by omega), List.getD_eq_default _ _ (by omega)]
  · intro i c
    by_cases hi : i < 6
    · by_cases hc : c < cols
      · rw [refine_tabs_grid_cell midi_track step sr hop max_fret cols grid hlen hrows i c
          hi hc]
        exact refineCell_rest_iff _ _ _ _
      · have h1 : ((refine_tabs_grid midi_track step sr hop max_fret cols grid).getD
            i []).getD c Cell.rest = Cell.rest :=
          List.getD_eq_default _ _ (by rw [hrowlen i hi]; omega)
        have h2 : ((grid.getD i []).getD c Cell.rest) = Cell.rest := by
          have hi6 : i < grid.length := by omega
          refine List.getD_eq_default _ _ ?_
          rw [List.getD_eq_getElem _ _ hi6, hrows grid[i] (List.getElem_mem hi6)]
          omega
        rw [h1, h2]
    · have h0 : (refine_tabs_grid midi_track step sr hop max_fret cols grid).getD i [] =
          ([] : List Cell) := List.getD_eq_default _ _ (by omega)
      have h0g : grid.getD i [] = ([] : List Cell) := List.getD_eq_default _ _ (by omega)
      rw [h0, h0g]
  · intro i c n m hn hm
    by_cases hi : i < 6
    · by_cases hc : c < cols
      · rw [refine_tabs_grid_cell midi_track step sr hop max_fret cols grid hlen hrows i c
          hi hc, hn] at hm
        exact refineCell_fret _ _ _ _ _ hm
      · exfalso
        have hi6 : i < grid.length := by omega
        have : (grid.getD i []).getD c Cell.rest = Cell.rest := by
          refine List.getD_eq_default _ _ ?_
          rw [List.getD_eq_getElem _ _ hi6, hrows grid[i] (List.getElem_mem hi6)]
          omega
        rw [this] at hn
        exact Cell.noConfusion hn
    · exfalso
      have h0g : grid.getD i [] = ([] : List Cell) := List.getD_eq_default _ _ (by omega)
      rw [h0g] at hn
      exact Cell.noConfusion hn

theorem refiner_frame_condition_witness :
    ([[Cell.fret 5], [Cell.rest], [Cell.rest], [Cell.rest], [Cell.rest],
        [Cell.rest]] : List (List Cell)).length = 6 ∧
      (refine_tabs_grid [some 50] (mkRat 14 100) 22050 512 24 1
          [[Cell.fret 5], [Cell.rest], [Cell.rest], [Cell.rest], [Cell.rest],
            [Cell.rest]]).length =
        ([[Cell.fret 5], [Cell.rest], [Cell.rest], [Cell.rest], [Cell.rest],
          [Cell.rest]] : List (List Cell)).length :=
  ⟨by decide,
    (refiner_frame_condition [some 50] (mkRat 14 100) 22050 512 24 1
      [[Cell.fret 5], [Cell.rest], [Cell.rest], [Cell.rest], [Cell.rest], [Cell.rest]]
      (by decide) (by decide)).1⟩

/-! ## Pitch-track smoother (`_smooth_f0`, `pitch_detector.py`) -/

/-- Ascending insertion sort, used to model the sorting inside
`np.nanmedian`. -/
def insertSorted (x : ℚ) : List ℚ → List ℚ
  | [] => [x]
  | y :: ys => if x ≤ y then x :: y :: ys else y :: insertSorted x ys

/-- Ascending sort of a rational list. -/
def sortAsc (l : List ℚ) : List ℚ := l.foldr insertSorted []

/-- `np.nanmedian` (external numpy): the median of the valid entries — the
middle element of the sorted values for an odd count, the mean of the two
middle elements for an even count.  (For an empty list numpy yields NaN; that
case is unreachable behind the all-invalid guard of `_smooth_f0`, the
`getD` default 0 stands in.) -/
def nanmedian (l : List (Option ℚ)) : ℚ :=
  let vals := sortAsc (l.filterMap id)
  let n := vals.length
  if n % 2 = 1 then vals.getD (n / 2) 0
  else (vals.getD (n / 2 - 1) 0 + vals.getD (n / 2) 0) / 2

/-- `_smooth_f0` (`pitch_detector.py`, lines 52-66), with
`scipy.signal.medfilt` as an external parameter taking the adjusted (odd)
kernel size.  `none` models a non-finite (`NaN`) entry; `filled` replaces
invalid entries by the `nanmedian` of the valid ones, and the final step
restores `NaN` at every originally-invalid position. -/
def _smooth_f0 (medfilt : ℕ → List ℚ → List ℚ) (kernel_size : ℕ)
    (f0 : List (Option ℚ)) : List (Option ℚ) :=
  if f0.length = 0 then f0
  else if f0.all (fun x => x.isNone) then f0
  else
    let median_val := nanmedian f0
    let filled := f0.map (fun x => x.getD median_val)
    let k := if kernel_size % 2 = 0 then kernel_size + 1 else kernel_size
    let smoothed := medfilt k filled
    List.zipWith (fun orig s => if orig.isSome then some s else none) f0 smoothed

/-- C9.  Smoother mask preservation: for every input frequency sequence and
any length-preserving median filter, `_smooth_f0` returns a sequence of the
same length in which every originally invalid position is still invalid and
every originally valid position carries exactly the filter's output at that
position; if every frame is invalid (or the input is empty) the input is
returned unchanged. -/
theorem smooth_f0_mask_preservation (medfilt : ℕ → List ℚ → List ℚ)
    (hmf : ∀ k l, (medfilt k l).length = l.length) (kernel_size : ℕ)
    (f0 : List (Option ℚ)) :
    (_smooth_f0 medfilt kernel_size f0).length = f0.length ∧
    (∀ i, f0.getD i none = none → (_smooth_f0 medfilt kernel_size f0).getD i none = none) ∧
    (∀ i, i < f0.length → (f0.getD i none).isSome = true →
      (_smooth_f0 medfilt kernel_size f0).getD i none =
        some ((medfilt (if kernel_size % 2 = 0 then kernel_size + 1 else kernel_size)
          (f0.map (fun x => x.getD (nanmedian f0)))).getD i 0)) ∧
    (f0.all (fun x => x.isNone) = true → _smooth_f0 medfilt kernel_size f0 = f0) := by
  by_cases h0 : f0.length = 0
  · have hout : _smooth_f0 medfilt kernel_size f0 = f0 := by
      unfold _smooth_f0; rw [if_pos h0]
    rw [hout]
    exact ⟨rfl, fun i h => h, fun i hi _ => absurd hi (by omega), fun _ => rfl⟩
  · by_cases hall : f0.all (fun x => x.isNone) = true
    · have hout : _smooth_f0 medfilt kernel_size f0 = f0 := by
        unfold _smooth_f0; rw [if_neg h0, if_pos hall]
      rw [hout]
      refine ⟨rfl, fun i h => h, ?_, fun _ => rfl⟩
      intro i hi hsome
      have hmem : f0.getD i none ∈ f0 := by
        rw [List.getD_eq_getElem _ _ hi]
        exact List.getElem_mem hi
      have hnone : (f0.getD i none).isNone = true := List.all_eq_true.mp hall _ hmem
      rw [Option.isNone_iff_eq_none.mp hnone] at hsome
      exact absurd hsome (by decide)
    · have hslen : (medfilt (if kernel_size % 2 = 0 then kernel_size + 1 else kernel_size)
          (f0.map (fun x => x.getD (nanmedian f0)))).length = f0.length := by
        rw [hmf]
        exact List.length_map _ _
      have hout : _smooth_f0 medfilt kernel_size f0 =
          List.zipWith (fun orig s => if orig.isSome then some s else none) f0
            (medfilt (if kernel_size % 2 = 0 then kernel_size + 1 else kernel_size)
              (f0.map (fun x => x.getD (nanmedian f0)))) := by
        unfold _smooth_f0
        rw [if_neg h0, if_neg hall]
      have hzlen : (_smooth_f0 medfilt kernel_size f0).length = f0.length := by
        rw [hout, List.length_zipWith, hslen]
        exact min_self _
      refine ⟨hzlen, ?_, ?_, fun hAll => absurd hAll hall⟩
      · intro i h
        by_cases hi : i < f0.length
        · rw [hout]
          rw [List.getD_eq_getElem _ _ (by rw [List.length_zipWith, hslen]; omega)]
          rw [List.getElem_zipWith]
          rw [List.getD_eq_getElem _ _ hi] at h
          rw [h]
          rfl
        · exact List.getD_eq_default _ _ (by omega)
      · intro i hi hsome
        rw [hout]
        rw [List.getD_eq_getElem _ _ (by rw [List.length_zipWith, hslen]; omega)]
        rw [List.getElem_zipWith]
        rw [List.getD_eq_getElem _ _ hi] at hsome
        rw [if_pos hsome]
        rw [List.getD_eq_getElem _ _ (by omega)]

theorem smooth_f0_mask_preservation_witness :
    (∀ k l, ((fun (_ : ℕ) (l : List ℚ) => l) k l).length = l.length) ∧
      (_smooth_f0 (fun _ l => l) 5 [some 440, none, some 441]).length =
        ([some 440, none, some 441] : List (Option ℚ)).length :=
  ⟨fun _ _ => rfl,
    (smooth_f0_mask_preservation (fun _ l => l) (fun _ _ => rfl) 5
      [some 440, none, some 441]).1⟩

/-! ## Parameter-search optimizers (`auto_tune.py`, `synth_matcher.py`) -/

/-- The best-so-far accumulator shared by both optimizer loops: replace only
on a strictly larger score (`candidate.score > best.score` /
`score > best_score`), which keeps the first maximum in enumeration order. -/
def foldBest {α : Type} (score : α → ℚ) (b : α) (l : List α) : α :=
  l.foldl (fun best y => if score best < score y then y else best) b

theorem foldBest_mem {α : Type} (score : α → ℚ) (b : α) (l : List α) :
    foldBest score b l ∈ b :: l := by
  induction l generalizing b with
  | nil => simp [foldBest]
  | cons y ys ih =>
    simp only [foldBest, List.foldl_cons]
    by_cases h : score b < score y
    · simp only [if_pos h]
      have h1 := ih y
      simp only [foldBest] at h1
      exact List.mem_cons_of_mem b h1
    · simp only [if_neg h]
      have h1 := ih b
      simp only [foldBest] at h1
      rcases List.mem_cons.mp h1 with h2 | h2
      · rw [h2]; exact List.mem_cons_self b _
      · exact List.mem_cons_of_mem b (List.mem_cons_of_mem y h2)

theorem foldBest_max {α : Type} (score : α → ℚ) (b : α) (l : List α) :
    ∀ y ∈ b :: l, score y ≤ score (foldBest score b l) := by
  induction l generalizing b with
  | nil => intro y hy; simp at hy; simp [foldBest, hy]
  | cons z zs ih =>
    intro y hy
    simp only [foldBest, List.foldl_cons]
    by_cases h : score b < score z
    · simp only [if_pos h]
      rcases List.mem_cons.mp hy with h2 | h2
      · calc score y ≤ score z := by rw [h2]; exact le_of_lt h
          _ ≤ score (foldBest score z zs) := ih z z (by simp)
      · exact ih z y h2
    · simp only [if_neg h]
      rcases List.mem_cons.mp hy with h2 | h2
      · exact ih b y (by simp [h2])
      · rcases List.mem_cons.mp h2 with h3 | h3
        · calc score y ≤ score b := by rw [h3]; exact not_lt.mp h
            _ ≤ score (foldBest score b zs) := ih b b (by simp)
        · exact ih b y (by simp [h3])

theorem foldBest_first {α : Type} (score : α → ℚ) (d : α) (b : α) (l : List α) :
    ∃ i, i < (b :: l).length ∧ (b :: l).getD i d = foldBest score b l ∧
      ∀ j, j < i → score ((b :: l).getD j d) < score (foldBest score b l) := by
  induction l generalizing b with
  | nil => exact ⟨0, by simp, rfl, fun j hj => absurd hj (by omega)⟩
  | cons y ys ih =>
    by_cases h : score b < score y
    · have hfb : foldBest score b (y :: ys) = foldBest score y ys := by
        simp only [foldBest, List.foldl_cons, if_pos h]
      obtain ⟨i, hi, hget, hlt⟩ := ih y
      refine ⟨i + 1, by simpa using hi, ?_, ?_⟩
      · rw [hfb]
        exact hget
      · intro j hj
        rw [hfb]
        cases j with
        | zero =>
          calc score ((b :: y :: ys).getD 0 d) = score b := rfl
            _ < score y := h
            _ ≤ score (foldBest score y ys) := foldBest_max score y ys y (by simp)
        | succ j2 =>
          exact hlt j2 (by omega)
    · have hfb : foldBest score b (y :: ys) = foldBest score b ys := by
        simp only [foldBest, List.foldl_cons, if_neg h]
      obtain ⟨i, hi, hget, hlt⟩ := ih b
      cases i with
      | zero =>
        refine ⟨0, by simp, ?_, fun j hj => absurd hj (by omega)⟩
        rw [hfb]
        exact hget
      | succ i2 =>
        refine ⟨i2 + 2, by simp at hi ⊢; omega, ?_, ?_⟩
        · rw [hfb]
          exact hget
        · intro j hj
          rw [hfb]
          have hb : score b < score (foldBest score b ys) := by
            have := hlt 0 (by omega)
            simpa using this
          cases j with
          | zero => exact hb
          | succ j2 =>
            cases j2 with
            | zero =>
              calc score ((b :: y :: ys).getD 1 d) = score y := rfl
                _ ≤ score b := not_lt.mp h
                _ < score (foldBest score b ys) := hb
            | succ j3 =>
              have := hlt (j3 + 1) (by omega)
              simpa using this

theorem foldBest_append {α : Type} (score : α → ℚ) (b : α) (l1 l2 : List α) :
    foldBest score b (l1 ++ l2) = foldBest score (foldBest score b l1) l2 := by
  simp [foldBest, List.foldl_append]

/-- `TuneResult` of `auto_tune.py` (lines 13-20); the pitch label of each
note is an integer as elsewhere. -/
structure TuneResult where
  notes : List NoteRec
  min_duration : ℚ
  min_voiced_prob : ℚ
  segment_seconds : ℚ
  use_harmonic : Bool
  score : ℚ
deriving DecidableEq, Inhabited

/-- The `itertools.product(durations, probs, segments)` enumeration order
(rightmost factor varies fastest). -/
def productList3 (as bs cs : List ℚ) : List (ℚ × ℚ × ℚ) :=
  as.flatMap (fun a => bs.flatMap (fun b => cs.map (fun c => (a, b, c))))

/-- One candidate of the `find_best_extraction` loop (`auto_tune.py`,
lines 42-64): the preview-audio extraction is the oracle `extractPrev`
(the source call also passes `use_harmonic` and `segment_seconds`, which the
`extract_notes_from_audio` under `src/` does not accept — see the C8 analysis);
`score = count - max(0, count / max(preview_duration, 1e-6) - 2.0) * 120`. -/
def tuneCandidate (extractPrev : ℚ → ℚ → ℚ → List NoteRec) (preview_duration_sec : ℚ)
    (use_harmonic : Bool) (mdmpseg : ℚ × ℚ × ℚ) : TuneResult :=
  let notes := extractPrev mdmpseg.1 mdmpseg.2.1 mdmpseg.2.2
  let count : ℚ := (notes.length : ℚ)
  let density := count / max preview_duration_sec (mkRat 1 1000000)
  let penalty := max 0 (density - 2) * 120
  ⟨notes, mdmpseg.1, mdmpseg.2.1, mdmpseg.2.2, use_harmonic, count - penalty⟩

/-- The best-so-far update of `find_best_extraction` (`auto_tune.py`,
lines 66-67): `if best is None or candidate.score > best.score`. -/
def tuneStep (best : Option TuneResult) (candidate : TuneResult) : Option TuneResult :=
  match best with
  | none => some candidate
  | some b => if b.score < candidate.score then some candidate else some b

/-- `find_best_extraction` (`auto_tune.py`, lines 23-88), with the preview
and full-audio extraction runs as oracles.  `best` starts as `None` and is
replaced exactly when `candidate.score > best.score`; the winner is re-run on
the full audio, keeping its parameters and score.  Returns `none` exactly in
the `assert best is not None` case (empty grid). -/
def find_best_extraction (extractPrev extractFull : ℚ → ℚ → ℚ → List NoteRec)
    (preview_duration_sec : ℚ) (use_harmonic : Bool)
    (durations probs segments : List ℚ) : Option TuneResult :=
  let cands := (productList3 durations probs segments).map
    (tuneCandidate extractPrev preview_duration_sec use_harmonic)
  let best := cands.foldl tuneStep none
  match best with
  | none => none
  | some b =>
    some { b with notes := extractFull b.min_duration b.min_voiced_prob b.segment_seconds }

/-- `SynthParams`: the five searched synthesis parameters
(`synth_matcher.py`). -/
structure SynthParams where
  step_seconds : ℚ
  note_seconds : ℚ
  decay : ℚ
  gain : ℚ
  transpose_semitones : ℤ
deriving DecidableEq, Inhabited

/-- The coarse search grid of `optimize_synth_against_original`
(`synth_matcher.py`, lines 106-112), in `itertools.product` order. -/
def coarseGrid : List SynthParams :=
  [mkRat 11 100, mkRat 14 100, mkRat 17 100].flatMap (fun step =>
    [mkRat 14 100, mkRat 19 100, mkRat 24 100].flatMap (fun note =>
      [mkRat 993 1000, mkRat 996 1000, mkRat 998 1000].flatMap (fun decay =>
        [mkRat 28 100, mkRat 38 100, mkRat 48 100].flatMap (fun gain =>
          ([-2, -1, 0, 1, 2] : List ℤ).map (fun trans =>
            ⟨step, note, decay, gain, trans⟩)))))

/-- The refinement grid around the coarse winner (`synth_matcher.py`,
lines 141-153); `sorted(set([t0-1, t0, t0+1]))` is `[t0-1, t0, t0+1]`,
already sorted and duplicate-free. -/
def refineGrid (p : SynthParams) : List SynthParams :=
  let steps := [max (mkRat 8 100) (p.step_seconds - mkRat 15 1000), p.step_seconds,
    min (mkRat 22 100) (p.step_seconds + mkRat 15 1000)]
  let notes := [max (mkRat 10 100) (p.note_seconds - mkRat 2 100), p.note_seconds,
    min (mkRat 30 100) (p.note_seconds + mkRat 2 100)]
  let decays := [max (mkRat 990 1000) (p.decay - mkRat 1 1000), p.decay,
    min (mkRat 999 1000) (p.decay + mkRat 1 1000)]
  let gains := [max (mkRat 15 100) (p.gain - mkRat 6 100), p.gain,
    min (mkRat 65 100) (p.gain + mkRat 6 100)]
  let transs := [p.transpose_semitones - 1, p.transpose_semitones, p.transpose_semitones + 1]
  steps.flatMap (fun step => notes.flatMap (fun note => decays.flatMap (fun decay =>
    gains.flatMap (fun gain => transs.map (fun trans => ⟨step, note, decay, gain, trans⟩)))))

/-- `optimize_synth_against_original` (`synth_matcher.py`, lines 67-176) with
the preview renderer+scorer (`score_params`) as an oracle: exhaustive coarse
pass, then one refinement pass around the coarse winner, keeping the best
score seen across both passes.  `best_score` starts at `-1e9` with an empty
`best_params` dict (modelled as `default`); the final full-rate render
changes neither score nor parameters, so the result is (best score, best
params). -/
def optimize_synth_against_original (score : SynthParams → ℚ) : ℚ × SynthParams :=
  let init : ℚ × SynthParams := (-(10 ^ 9 : ℚ), default)
  let afterCoarse := coarseGrid.foldl
    (fun best p => if best.1 < score p then (score p, p) else best) init
  (refineGrid afterCoarse.2).foldl
    (fun best p => if best.1 < score p then (score p, p) else best) afterCoarse

/-- The full candidate sequence evaluated across both passes of
`optimize_synth_against_original`: the coarse grid, then the refinement grid
built around the coarse winner. -/
def synthEvaluated (score : SynthParams → ℚ) : List SynthParams :=
  coarseGrid ++ refineGrid ((coarseGrid.foldl
    (fun best p => if best.1 < score p then (score p, p) else best)
    (-(10 ^ 9 : ℚ), default)).2)

theorem tuneStep_fold :
    ∀ (xs : List TuneResult) (x : TuneResult),
    xs.foldl tuneStep (some x) = some (foldBest TuneResult.score x xs) := by
  intro xs
  induction xs with
  | nil => intro x; rfl
  | cons y ys ih =>
    intro x
    rw [List.foldl_cons]
    have hstep : tuneStep (some x) y =
        if x.score < y.score then some y else some x := rfl
    rw [hstep]
    by_cases h : x.score < y.score
    · rw [if_pos h, ih y]
      simp only [foldBest, List.foldl_cons, if_pos h]
    · rw [if_neg h, ih x]
      simp only [foldBest, List.foldl_cons, if_neg h]

theorem pairFold_eq_foldBest (score : SynthParams → ℚ) :
    ∀ (xs : List SynthParams) (x : SynthParams),
    xs.foldl (fun best p => if best.1 < score p then (score p, p) else best) (score x, x) =
      (score (foldBest score x xs), foldBest score x xs) := by
  intro xs
  induction xs with
  | nil => intro x; rfl
  | cons y ys ih =>
    intro x
    rw [List.foldl_cons]
    have hstep : (if (score x, x).1 < score y then (score y, y) else (score x, x)) =
        if score x < score y then (score y, y) else (score x, x) := rfl
    rw [hstep]
    by_cases h : score x < score y
    · rw [if_pos h, ih y]
      simp only [foldBest, List.foldl_cons, if_pos h]
    · rw [if_neg h, ih x]
      simp only [foldBest, List.foldl_cons, if_neg h]

theorem initFold (score : SynthParams → ℚ) (x : SynthParams) (xs : List SynthParams)
    (hx : -(10 ^ 9 : ℚ) < score x) :
    (x :: xs).foldl (fun best p => if best.1 < score p then (score p, p) else best)
      (-(10 ^ 9 : ℚ), (default : SynthParams)) =
      xs.foldl (fun best p => if best.1 < score p then (score p, p) else best)
        (score x, x) := by
  rw [List.foldl_cons]
  have hstep : (if ((-(10 ^ 9 : ℚ), (default : SynthParams))).1 < score x then (score x, x)
      else (-(10 ^ 9 : ℚ), (default : SynthParams))) =
      if -(10 ^ 9 : ℚ) < score x then (score x, x) else (-(10 ^ 9 : ℚ), default) := rfl
  rw [hstep, if_pos hx]

set_option maxRecDepth 4000 in
set_option maxHeartbeats 1000000 in
/-- C4.  Optimizer arg-max and tie-breaking, both modes.  (a) Segmentation
tuning: `find_best_extraction` returns a result whose parameters and score
are those of a candidate whose score is maximal over the whole enumerated
product grid, and every earlier candidate in enumeration order scores
strictly less.  (b) Synthesis matching: `optimize_synth_against_original`
returns (best score, best params) where the score equals `score` of the
returned params, the returned params score at least every candidate evaluated
across both passes (coarse grid, then refinement grid around the coarse
winner), and every earlier evaluated candidate scores strictly less.  The
score-bound hypothesis reflects `compare_audio_similarity`'s range
(`0.75 * chroma + 0.25 * clamp(onset)` lies in `[-1, 1]`, far above the
`-1e9` sentinel). -/
theorem optimizer_argmax_first
    (extractPrev extractFull : ℚ → ℚ → ℚ → List NoteRec) (pd : ℚ) (uh : Bool)
    (durations probs segments : List ℚ)
    (hne : productList3 durations probs segments ≠ [])
    (score : SynthParams → ℚ) (hscore : ∀ p, -(10 ^ 9 : ℚ) < score p) :
    (∃ b i,
      find_best_extraction extractPrev extractFull pd uh durations probs segments = some b ∧
      i < ((productList3 durations probs segments).map
        (tuneCandidate extractPrev pd uh)).length ∧
      b.min_duration = (((productList3 durations probs segments).map
        (tuneCandidate extractPrev pd uh)).getD i default).min_duration ∧
      b.min_voiced_prob = (((productList3 durations probs segments).map
        (tuneCandidate extractPrev pd uh)).getD i default).min_voiced_prob ∧
      b.segment_seconds = (((productList3 durations probs segments).map
        (tuneCandidate extractPrev pd uh)).getD i default).segment_seconds ∧
      b.score = (((productList3 durations probs segments).map
        (tuneCandidate extractPrev pd uh)).getD i default).score ∧
      (∀ y ∈ (productList3 durations probs segments).map (tuneCandidate extractPrev pd uh),
        y.score ≤ b.score) ∧
      (∀ j, j < i → (((productList3 durations probs segments).map
        (tuneCandidate extractPrev pd uh)).getD j default).score < b.score)) ∧
    ((optimize_synth_against_original score).1 =
        score (optimize_synth_against_original score).2 ∧
      (∀ p ∈ synthEvaluated score, score p ≤ score (optimize_synth_against_original score).2) ∧
      ∃ i, i < (synthEvaluated score).length ∧
        (synthEvaluated score).getD i default = (optimize_synth_against_original score).2 ∧
        ∀ j, j < i → score ((synthEvaluated score).getD j default) <
          score (optimize_synth_against_original score).2) := by
  constructor
  · -- (a) segmentation tuning
    obtain ⟨p0, prest, hprod⟩ := List.exists_cons_of_ne_nil hne
    have hcands : (productList3 durations probs segments).map
        (tuneCandidate extractPrev pd uh) =
        tuneCandidate extractPrev pd uh p0 ::
          prest.map (tuneCandidate extractPrev pd uh) := by
      rw [hprod, List.map_cons]
    set c0 := tuneCandidate extractPrev pd uh p0 with hc0
    set crest := prest.map (tuneCandidate extractPrev pd uh) with hcrest
    have hfold : ((productList3 durations probs segments).map
        (tuneCandidate extractPrev pd uh)).foldl tuneStep none =
        some (foldBest TuneResult.score c0 crest) := by
      rw [hcands, List.foldl_cons]
      have hinit : tuneStep none c0 = some c0 := rfl
      rw [hinit]
      exact tuneStep_fold crest c0
    have hres : find_best_extraction extractPrev extractFull pd uh durations probs segments =
        some { foldBest TuneResult.score c0 crest with
          notes := extractFull (foldBest TuneResult.score c0 crest).min_duration
            (foldBest TuneResult.score c0 crest).min_voiced_prob
            (foldBest TuneResult.score c0 crest).segment_seconds } := by
      simp only [find_best_extraction]
      rw [hfold]
    obtain ⟨i, hi, hget, hlt⟩ := foldBest_first TuneResult.score default c0 crest
    refine ⟨_, i, hres, ?_, ?_, ?_, ?_, ?_, ?_, ?_⟩
    · rw [hcands]; exact hi
    · rw [hcands, hget]
    · rw [hcands, hget]
    · rw [hcands, hget]
    · rw [hcands, hget]
    · intro y hy
      rw [hcands] at hy
      exact foldBest_max TuneResult.score c0 crest y hy
    · intro j hj
      rw [hcands]
      exact hlt j hj
  · -- (b) synthesis matching
    have hcgne : coarseGrid ≠ [] := by decide
    obtain ⟨c0, crest, hcc⟩ := List.exists_cons_of_ne_nil hcgne
    have hcoarse : coarseGrid.foldl
        (fun best p => if best.1 < score p then (score p, p) else best)
        (-(10 ^ 9 : ℚ), (default : SynthParams)) =
        (score (foldBest score c0 crest), foldBest score c0 crest) := by
      rw [hcc, initFold score c0 crest (hscore c0), pairFold_eq_foldBest]
    set w1 := foldBest score c0 crest with hw1
    have hopt : optimize_synth_against_original score =
        (score (foldBest score w1 (refineGrid w1)), foldBest score w1 (refineGrid w1)) := by
      simp only [optimize_synth_against_original]
      rw [hcoarse]
      exact pairFold_eq_foldBest score (refineGrid w1) w1
    have heval : synthEvaluated score = c0 :: (crest ++ refineGrid w1) := by
      unfold synthEvaluated
      rw [hcoarse, hcc]
      rfl
    set w2 := foldBest score w1 (refineGrid w1) with hw2
    have hw2c : w2 = foldBest score c0 (crest ++ refineGrid w1) := by
      rw [foldBest_append]
    refine ⟨by rw [hopt], ?_, ?_⟩
    · intro p hp
      rw [heval] at hp
      rw [hopt]
      show score p ≤ score w2
      rw [hw2c]
      exact foldBest_max score c0 (crest ++ refineGrid w1) p hp
    · obtain ⟨i, hi, hget, hlt⟩ := foldBest_first score default c0 (crest ++ refineGrid w1)
      refine ⟨i, ?_, ?_, ?_⟩
      · rw [heval]; exact hi
      · rw [heval, hopt, hget, ← hw2c]
      · intro j hj
        rw [heval, hopt]
        show score ((c0 :: (crest ++ refineGrid w1)).getD j default) < score w2
        rw [hw2c]
        exact hlt j hj

theorem optimizer_argmax_first_witness :
    productList3 [1] [1] [1] ≠ [] ∧
      (∀ p : SynthParams, -(10 ^ 9 : ℚ) < (fun _ => (0 : ℚ)) p) ∧
      (optimize_synth_against_original (fun _ => (0 : ℚ))).1 = (0 : ℚ) :=
  ⟨by decide, fun p => by norm_num,
    (optimizer_argmax_first (fun _ _ _ => []) (fun _ _ _ => []) 1 true [1] [1] [1]
      (by decide) (fun _ => (0 : ℚ)) (fun p => by norm_num)).2.1⟩

/-! ## The `segment_seconds` interface mismatch (`pitch_detector.py` vs its
callers) -/

/-- The parameter list of `extract_notes_from_audio` as defined in
`src/pitch_detector.py`, lines 83-89. -/
def extract_notes_from_audio_params : List String :=
  ["audio", "min_duration", "min_voiced_prob", "merge_gap"]

/-- The keyword arguments `find_best_extraction` passes to
`detector.extract_notes_from_audio` (`src/auto_tune.py`, lines 43-50). -/
def find_best_extraction_call_kwargs : List String :=
  ["min_duration", "min_voiced_prob", "merge_gap", "use_harmonic", "segment_seconds"]

/-- The keyword arguments `main` passes to
`pitch_det.extract_notes_from_audio` (`src/main.py`, lines 126-132). -/
def main_call_kwargs : List String :=
  ["min_duration", "min_voiced_prob", "use_harmonic", "segment_seconds"]

/-- C8.  `extract_notes_from_audio` does NOT accept a `segment_seconds`
parameter (nor `use_harmonic`), yet both in-repository call sites pass it:
by Python call semantics every such call raises
`TypeError: extract_notes_from_audio() got an unexpected keyword argument`.
The claim (and the spec and the callers) describe segmented evaluation that
the function under `src/` neither accepts nor implements. -/
theorem segment_seconds_not_accepted :
    "segment_seconds" ∈ find_best_extraction_call_kwargs ∧
      "segment_seconds" ∈ main_call_kwargs ∧
      "segment_seconds" ∉ extract_notes_from_audio_params ∧
      "use_harmonic" ∉ extract_notes_from_audio_params := by
  refine ⟨?_, ?_, ?_, ?_⟩ <;> decide
